import Mathlib

/-!
Verification of the Torrent Coordinator (`torrentmgr.py`).

This file shallowly embeds the `TorrentMgr` class: the manager's mutable
attributes become a `State` record, every event handler becomes a pure
function from a state to a state paired with the list of commands it sends
to its collaborators, and the single-threaded event loop becomes a `Step`
relation.  Python `dict`s are embedded as association lists with
update-in-place/append-at-end semantics (`aupdate`), Python machine
integers as `Int`/`Nat`, and the rolling SHA-1 object as the list of bytes
fed to it so far, with the digest function kept abstract in `Config`.
-/

namespace Torrent

/-- Python `dict` read `d[k]` (as an `Option`; callers that cannot raise
`KeyError` use the `some` case only). -/
def alookup {α : Type} : List (Nat × α) → Nat → Option α
  | [], _ => none
  | (k, v) :: t, k' => if k = k' then some v else alookup t k'

/-- Python `dict` write `d[k] = v`: replace the entry for an existing key in
place, otherwise append the new key at the end. -/
def aupdate {α : Type} : List (Nat × α) → Nat → α → List (Nat × α)
  | [], k, v => [(k, v)]
  | (k', v') :: t, k, v => if k' = k then (k, v) :: t else (k', v') :: aupdate t k v

/-- Python `del d[k]`. -/
def aerase {α : Type} : List (Nat × α) → Nat → List (Nat × α)
  | [], _ => []
  | (k', v') :: t, k => if k' = k then t else (k', v') :: aerase t k

/-- `BitArray.findall('0b1')`: indices of the set bits, ascending. -/
def setBits (b : List Bool) : List Nat :=
  (List.range b.length).filter (fun i => b.getD i false)

/-- `BitArray.findall('0b0')`: indices of the clear bits, ascending. -/
def zeroBits (b : List Bool) : List Nat :=
  (List.range b.length).filter (fun i => !(b.getD i false))

/-- Python 2 lexicographic `<` on lists of peer identifiers (used inside the
tuple comparison performed by `sorted` in `_rarest`). -/
def listLtB : List Nat → List Nat → Bool
  | [], [] => false
  | [], _ :: _ => true
  | _ :: _, [] => false
  | a :: as, b :: bs => if a < b then true else if b < a then false else listLtB as bs

/-- Python 2 tuple `<=` on `(occurences, peers, index)` triples, the order
used by `sorted` in `_rarest`. -/
def rarLeB (x y : Int × List Nat × Nat) : Bool :=
  if x.1 < y.1 then true
  else if y.1 < x.1 then false
  else if listLtB x.2.1 y.2.1 then true
  else if listLtB y.2.1 x.2.1 then false
  else decide (x.2.2 ≤ y.2.2)

/-- The `rarLeB` comparison as a relation, for use with `insertionSort`. -/
def rarLe (x y : Int × List Nat × Nat) : Prop := rarLeB x y = true

instance rarLe.decRel : DecidableRel rarLe := fun x y =>
  inferInstanceAs (Decidable (rarLeB x y = true))

/-- The constants of the torrent: piece geometry plus (as abstract
functions) the metainfo piece hashes and the SHA-1 digest. -/
structure Config where
  numPieces : Nat
  pieceLength : Int
  totalLength : Int
  pieceHash : Nat → List Nat
  sha1digest : List Nat → List Nat

/-- `_BLOCK_SIZE = 2**14`. -/
def BLOCK_SIZE : Int := 2 ^ 14

/-- `_MAX_RETRIES = 2`. -/
def MAX_RETRIES : Nat := 2

/-- An `_interested` entry: `(piece, bytes received, rolling sha1, tick)`. -/
structure Resv where
  piece : Nat
  got : Nat
  hash : List Nat
  tick : Nat
deriving Repr, DecidableEq

/-- A `_requesting` entry: a reservation plus the retry count. -/
structure ActiveReq where
  piece : Nat
  got : Nat
  hash : List Nat
  tick : Nat
  retries : Nat
deriving Repr, DecidableEq

/-- A `_partial` entry: `(piece, bytes received, rolling sha1)`. -/
structure Part where
  piece : Nat
  got : Nat
  hash : List Nat
deriving Repr, DecidableEq

/-- The mutable attributes of a started `TorrentMgr`.  Peers are embedded as
natural-number identifiers.  `setAside` is the `_partial` list. -/
structure State where
  peers : List Nat
  bitfields : List (Nat × List Bool)
  haveBf : List Bool
  needed : List (Nat × Int × List Nat)
  interested : List (Nat × Resv)
  requesting : List (Nat × ActiveReq)
  setAside : List Part
  tick : Nat
deriving Repr, DecidableEq

/-- Commands the manager sends to its collaborators (peer proxies, the
tracker by way of `_connect_to_peers`, the file manager, and the completion
deferred). -/
inductive Effect where
  | interested (p : Nat)
  | notInterested (p : Nat)
  | request (p idx off : Nat) (len : Int)
  | dropConnection (p : Nat)
  | connect (n : Nat)
  | writeBlock (idx off : Nat) (buf : List Nat)
  | complete
deriving Repr, DecidableEq

/-- Answers of the peer proxy's inspection predicates `is_interested` and
`is_peer_choked` at the moment a handler runs. -/
structure Env where
  isInterested : Nat → Bool
  isPeerChoked : Nat → Bool

/-- Exceptions that can escape or be raised by the embedded methods. -/
inductive PyErr where
  | indexError
  | attributeError
  | torrentMgrError
deriving Repr, DecidableEq

/-- `_is_last_piece`. -/
def is_last_piece (cfg : Config) (index : Nat) : Bool :=
  decide ((index : Int) = (cfg.numPieces : Int) - 1)

/-- `_length_of_last_piece`. -/
def length_of_last_piece (cfg : Config) : Int :=
  cfg.totalLength - ((cfg.numPieces : Int) - 1) * cfg.pieceLength

/-- `_length_of_piece`. -/
def length_of_piece (cfg : Config) (index : Nat) : Int :=
  if is_last_piece cfg index then length_of_last_piece cfg else cfg.pieceLength

/-- `_in_last_block`. -/
def in_last_block (cfg : Config) (index : Nat) (offset : Int) : Bool :=
  let pieceLength :=
    if is_last_piece cfg index then length_of_last_piece cfg else cfg.pieceLength
  decide (pieceLength - offset < BLOCK_SIZE)

/-- `_bytes_to_request` (the `if not ...` of the source with the branches
swapped). -/
def bytes_to_request (cfg : Config) (index : Nat) (offset : Int) : Int :=
  if in_last_block cfg index offset then length_of_piece cfg index - offset
  else BLOCK_SIZE

/-- `self._bitfields[peer]` (total: every connected peer has a bitfield, so
the `getD` default is never consulted on the states we reason about). -/
def bfOf (s : State) (p : Nat) : List Bool := (alookup s.bitfields p).getD []

/-- `_rarest`: needed pieces with a nonzero occurrence count as
`(occurences, peers, index)` triples, sorted ascending. -/
def rarest (s : State) : List (Int × List Nat × Nat) :=
  List.insertionSort rarLe
    ((s.needed.filter (fun e => !(e.2.1 == 0))).map (fun e => (e.2.1, e.2.2, e.1)))

/-- The set bits of `(~self._have) & self._bitfields[peer]`: needed pieces
this peer advertises. -/
def ofInterest (s : State) (p : Nat) : List Nat :=
  setBits (List.zipWith (fun a b => a && b) (s.haveBf.map (fun b => !b)) (bfOf s p))

/-- The pieces reserved in `self._interested` and `self._requesting`
(`dont_consider` in `_check_interest`). -/
def dontConsider (s : State) : List Nat :=
  s.interested.map (fun e => e.2.piece) ++ s.requesting.map (fun e => e.2.piece)

/-- `_request`: promote an `_interested` reservation to `_requesting` (with
the retry count reset) and send the request for the next block. -/
def request (cfg : Config) (s : State) (p : Nat) : State × List Effect :=
  let s1 :=
    match alookup s.interested p with
    | some r =>
        { s with interested := aerase s.interested p,
                 requesting := aupdate s.requesting p ⟨r.piece, r.got, r.hash, s.tick, 0⟩ }
    | none => s
  match alookup s1.requesting p with
  | some a => (s1, [Effect.request p a.piece a.got (bytes_to_request cfg a.piece (a.got : Int))])
  | none => (s1, [])

/-- `_show_interest`. -/
def show_interest (cfg : Config) (env : Env) (s : State) (p : Nat) : State × List Effect :=
  let eff := if env.isInterested p then [] else [Effect.interested p]
  if env.isPeerChoked p then (s, eff)
  else
    let r := request cfg s p
    (r.1, eff ++ r.2)

/-- `_check_interest`. -/
def check_interest (cfg : Config) (env : Env) (s : State) (p : Nat) : State × List Effect :=
  if (alookup s.interested p).isSome || (alookup s.requesting p).isSome then (s, [])
  else
    let ofInt := ofInterest s p
    let dont := dontConsider s
    let fall : State × List Effect :=
      if (alookup s.interested p).isNone && env.isInterested p then
        (s, [Effect.notInterested p, Effect.connect 1])
      else (s, [])
    if ofInt.length > 0 then
      match s.setAside.find? (fun e => ofInt.contains e.piece) with
      | some e =>
          let s1 := { s with setAside := s.setAside.erase e,
                             interested := aupdate s.interested p ⟨e.piece, e.got, e.hash, s.tick⟩ }
          show_interest cfg env s1 p
      | none =>
          match (rarest s).find? (fun r => ofInt.contains r.2.2 && !(dont.contains r.2.2)) with
          | some r =>
              let s1 := { s with interested := aupdate s.interested p ⟨r.2.2, 0, [], s.tick⟩ }
              show_interest cfg env s1 p
          | none => fall
    else fall

/-- One iteration of the `_needed` loop of `_remove_peer`. -/
def removePeer1 (p : Nat) (nd : List (Nat × Int × List Nat)) (piece : Nat) :
    List (Nat × Int × List Nat) :=
  match alookup nd piece with
  | some (occ, prs) =>
      if prs.contains p then aupdate nd piece (occ - 1, prs.erase p) else nd
  | none => nd

/-- The `_needed` part of `_remove_peer`: for every advertised piece still
needed, drop the peer from the piece's peer list and decrement its count. -/
def removePeerNeeded (p : Nat) (needed0 : List (Nat × Int × List Nat)) (pieces : List Nat) :
    List (Nat × Int × List Nat) :=
  pieces.foldl (removePeer1 p) needed0

/-- `_remove_peer`. -/
def remove_peer (s : State) (p : Nat) : State :=
  let s1 := { s with peers := s.peers.erase p }
  let s2 := { s1 with needed := removePeerNeeded p s1.needed (setBits (bfOf s1 p)) }
  let s3 := { s2 with bitfields := aerase s2.bitfields p }
  if (alookup s3.interested p).isSome then { s3 with interested := aerase s3.interested p }
  else
    match alookup s3.requesting p with
    | some a =>
        { s3 with setAside := s3.setAside ++ [⟨a.piece, a.got, a.hash⟩],
                  requesting := aerase s3.requesting p }
    | none => s3

/-- `peer_unconnected`. -/
def peer_unconnected (s : State) (p : Nat) : State × List Effect :=
  (remove_peer s p, [Effect.connect 1])

/-- One iteration of the `_needed` loop of `peer_bitfield`/`peer_has`. -/
def addPeer1 (p : Nat) (nd : List (Nat × Int × List Nat)) (piece : Nat) :
    List (Nat × Int × List Nat) :=
  match alookup nd piece with
  | some (occ, prs) =>
      if prs.contains p then nd else aupdate nd piece (occ + 1, prs ++ [p])
  | none => nd

/-- The `_needed` update shared by `peer_bitfield` and `peer_has`: add the
peer (idempotently) to each listed piece still needed and bump its count. -/
def addPeerNeeded (p : Nat) (needed0 : List (Nat × Int × List Nat)) (pieces : List Nat) :
    List (Nat × Int × List Nat) :=
  pieces.foldl (addPeer1 p) needed0

/-- The value transformation `addPeer1` applies at a hit piece. -/
def addVal (p : Nat) (v : Int × List Nat) : Int × List Nat :=
  if v.2.contains p then v else (v.1 + 1, v.2 ++ [p])

/-- The value transformation `removePeer1` applies at a hit piece. -/
def removeVal (p : Nat) (v : Int × List Nat) : Int × List Nat :=
  if v.2.contains p then (v.1 - 1, v.2.erase p) else v

/-- `peer_bitfield`. -/
def peer_bitfield (cfg : Config) (env : Env) (s : State) (p : Nat) (bf : List Bool) :
    State × List Effect :=
  if bf.length < cfg.numPieces ∨
      (bf.length > cfg.numPieces ∧ (bf.drop cfg.numPieces).any id = true) then
    (remove_peer s p, [Effect.dropConnection p, Effect.connect 1])
  else
    let bft := bf.take cfg.numPieces
    let s1 := { s with bitfields := aupdate s.bitfields p bft }
    let s2 := { s1 with needed := addPeerNeeded p s1.needed (setBits bft) }
    check_interest cfg env s2 p

/-- `peer_has`.  The third component records the `IndexError` the source
raises on an out-of-range index (before touching any state). -/
def peer_has (cfg : Config) (env : Env) (s : State) (p idx : Nat) :
    State × List Effect × Option PyErr :=
  if idx < cfg.numPieces then
    let s1 := { s with bitfields := aupdate s.bitfields p ((bfOf s p).set idx true) }
    match alookup s1.needed idx with
    | some (occ, prs) =>
        let s2 :=
          if prs.contains p then s1
          else { s1 with needed := aupdate s1.needed idx (occ + 1, prs ++ [p]) }
        let r := check_interest cfg env s2 p
        (r.1, r.2, none)
    | none => (s1, [], none)
  else (s, [], some PyErr.indexError)

/-- `peer_choked`. -/
def peer_choked (s : State) (p : Nat) : State × List Effect :=
  if (alookup s.interested p).isSome then
    ({ s with interested := aerase s.interested p }, [])
  else
    match alookup s.requesting p with
    | some a =>
        ({ s with setAside := s.setAside ++ [⟨a.piece, a.got, a.hash⟩],
                  requesting := aerase s.requesting p }, [])
    | none => (s, [])

/-- `peer_unchoked`. -/
def peer_unchoked (cfg : Config) (s : State) (p : Nat) : State × List Effect :=
  if (alookup s.interested p).isSome then request cfg s p else (s, [])

/-- `peer_sent_block`. -/
def peer_sent_block (cfg : Config) (env : Env) (s : State) (p idx begin_ : Nat)
    (buf : List Nat) : State × List Effect :=
  match alookup s.requesting p with
  | none => (s, [])
  | some a =>
    if a.piece = idx ∧ begin_ = a.got then
      let hash1 := a.hash ++ buf
      let effW := [Effect.writeBlock idx begin_ buf]
      let s1 := { s with requesting :=
                    (aupdate s.requesting p ⟨a.piece, a.got + buf.length, hash1, s.tick, 0⟩) }
      if ((a.got + buf.length : Nat) : Int) < length_of_piece cfg idx then
        let r := request cfg s1 p
        (r.1, effW ++ r.2)
      else
        let s2 :=
          if cfg.sha1digest hash1 = cfg.pieceHash idx then
            { s1 with needed := aerase s1.needed idx, haveBf := s1.haveBf.set idx true }
          else s1
        let s3 := { s2 with requesting := aerase s2.requesting p }
        if s3.needed ≠ [] then
          let r := check_interest cfg env s3 p
          (r.1, effW ++ r.2)
        else (s3, effW ++ [Effect.complete])
    else (s, [])

/-- One iteration of the stale-interest loop of `timer_event`. -/
def interestStep (acc : State × List Effect) (e : Nat × Resv) : State × List Effect :=
  if e.2.tick + 4 = acc.1.tick then
    ({ acc.1 with interested := aerase acc.1.interested e.1 },
     acc.2 ++ [Effect.notInterested e.1, Effect.connect 1])
  else acc

/-- One iteration of the stale-request loop of `timer_event`. -/
def requestStep (cfg : Config) (acc : State × List Effect) (e : Nat × ActiveReq) :
    State × List Effect :=
  if e.2.tick + 5 = acc.1.tick then
    if e.2.retries < MAX_RETRIES then
      let s1 := { acc.1 with requesting :=
                    (aupdate acc.1.requesting e.1
                      ⟨e.2.piece, e.2.got, e.2.hash, acc.1.tick, e.2.retries + 1⟩) }
      let r := request cfg s1 e.1
      (r.1, acc.2 ++ r.2)
    else
      ({ acc.1 with setAside := acc.1.setAside ++ [⟨e.2.piece, e.2.got, e.2.hash⟩],
                    requesting := aerase acc.1.requesting e.1 },
       acc.2 ++ [Effect.notInterested e.1, Effect.connect 1])
  else acc

/-- `timer_event`: bump the tick, then sweep snapshots of `_interested` and
`_requesting` exactly as the two `for` loops do. -/
def timer_event (cfg : Config) (s : State) : State × List Effect :=
  let s0 := { s with tick := s.tick + 1 }
  let a1 := s0.interested.foldl interestStep (s0, [])
  a1.1.requesting.foldl (requestStep cfg) a1

/-- The `handle_addrs` callback of `_connect_to_peers`: append each new
peer and seed its bitfield with all zeroes. -/
def handle_addrs (cfg : Config) (s : State) (addrs : List Nat) : State :=
  addrs.foldl (fun st p =>
    { st with peers := st.peers ++ [p],
              bitfields := aupdate st.bitfields p (List.replicate cfg.numPieces false) }) s

/-- The state set up by `initialize` and `start` (tick 1, empty pools,
`_needed` holding every clear bit of the initial `have` bitfield). -/
def initState (h0 : List Bool) : State :=
  { peers := [], bitfields := [],
    haveBf := h0,
    needed := (zeroBits h0).map (fun i => (i, ((0 : Int), ([] : List Nat)))),
    interested := [], requesting := [], setAside := [], tick := 1 }

/-- One event-loop callback.  Peer events come only from connected peers;
fresh peers delivered by the tracker are new identifiers. -/
inductive Step (cfg : Config) : State → State → Prop where
  | arrive (s : State) (addrs : List Nat) (hnd : addrs.Nodup)
      (hfresh : ∀ p ∈ addrs, p ∉ s.peers) :
      Step cfg s (handle_addrs cfg s addrs)
  | unconnected (s : State) (p : Nat) (hp : p ∈ s.peers) :
      Step cfg s (peer_unconnected s p).1
  | bitfield (env : Env) (s : State) (p : Nat) (bf : List Bool) (hp : p ∈ s.peers) :
      Step cfg s (peer_bitfield cfg env s p bf).1
  | hasPiece (env : Env) (s : State) (p idx : Nat) (hp : p ∈ s.peers) :
      Step cfg s (peer_has cfg env s p idx).1
  | choked (s : State) (p : Nat) (hp : p ∈ s.peers) :
      Step cfg s (peer_choked s p).1
  | unchoked (s : State) (p : Nat) (hp : p ∈ s.peers) :
      Step cfg s (peer_unchoked cfg s p).1
  | sentBlock (env : Env) (s : State) (p idx begin_ : Nat) (buf : List Nat)
      (hp : p ∈ s.peers) :
      Step cfg s (peer_sent_block cfg env s p idx begin_ buf).1
  | timer (s : State) : Step cfg s (timer_event cfg s).1

/-- States reachable from a freshly initialized and started manager. -/
inductive Reachable (cfg : Config) : State → Prop where
  | init (h0 : List Bool) (hlen : h0.length = cfg.numPieces) :
      Reachable cfg (initState h0)
  | step {s t : State} (hr : Reachable cfg s) (hs : Step cfg s t) : Reachable cfg t

/-- The pieces assigned across explicit `_interested`/`_requesting`/`_partial`
collections. -/
def assignedOf (intr : List (Nat × Resv)) (reqs : List (Nat × ActiveReq))
    (sa : List Part) : List Nat :=
  intr.map (fun e => e.2.piece) ++ reqs.map (fun e => e.2.piece)
    ++ sa.map (fun e => e.piece)

/-- The pieces currently assigned to a fetcher: reserved in `_interested`,
in flight in `_requesting`, or suspended in `_partial`. -/
def assignedPieces (s : State) : List Nat :=
  assignedOf s.interested s.requesting s.setAside

/-- The per-entry outcome of the stale-request sweep of `timer_event`
on `_requesting` (`none` means the entry is removed). -/
def sweepReq (tick : Nat) (e : Nat × ActiveReq) : Option (Nat × ActiveReq) :=
  if e.2.tick + 5 = tick then
    (if e.2.retries < MAX_RETRIES then
      some (e.1, ⟨e.2.piece, e.2.got, e.2.hash, tick, e.2.retries + 1⟩)
    else none)
  else some e

/-- Whether the stale-request sweep gives up on an entry (spilling it to
`_partial`). -/
def sweepGaveUp (tick : Nat) (e : Nat × ActiveReq) : Bool :=
  decide (e.2.tick + 5 = tick) && !(decide (e.2.retries < MAX_RETRIES))

/-- The commands the stale-request sweep sends for one entry. -/
def sweepReqEff (cfg : Config) (tick : Nat) (e : Nat × ActiveReq) : List Effect :=
  if e.2.tick + 5 = tick then
    (if e.2.retries < MAX_RETRIES then
      [Effect.request e.1 e.2.piece e.2.got (bytes_to_request cfg e.2.piece (e.2.got : Int))]
    else [Effect.notInterested e.1, Effect.connect 1])
  else []

/-- The per-entry outcome of the stale-interest sweep on `_interested`. -/
def sweepInt (tick : Nat) (e : Nat × Resv) : Option (Nat × Resv) :=
  if e.2.tick + 4 = tick then none else some e

/-- The commands the stale-interest sweep sends for one entry. -/
def sweepIntEff (tick : Nat) (e : Nat × Resv) : List Effect :=
  if e.2.tick + 4 = tick then [Effect.notInterested e.1, Effect.connect 1] else []

/-- The slice of the metainfo object the lifecycle accessors read. -/
structure MetaStub where
  name : String
  infoHash : List Nat
  numPieces : Nat
deriving Repr, DecidableEq

/-- `TorrentMgr._States`. -/
inductive LifeState where
  | Uninitialized
  | Initialized
  | Started
deriving Repr, DecidableEq

/-- The lifecycle-relevant attributes of a `TorrentMgr` object.  `metainfo`
and `neededCount` are `none` while the corresponding Python attributes
(`_metainfo`, `_needed`) have not been created yet; reading them then
raises `AttributeError`. -/
structure MgrLife where
  lifeState : LifeState
  metainfo : Option MetaStub
  neededCount : Option Nat
deriving Repr, DecidableEq

/-- `TorrentMgr.__init__`: the state is `Uninitialized` and neither
`_metainfo` nor `_needed` exists yet. -/
def mkTorrentMgr : MgrLife :=
  ⟨LifeState.Uninitialized, none, none⟩

/-- `TorrentMgr.name`: returns `self._metainfo.name` with no state check. -/
def mgr_name (m : MgrLife) : Except PyErr String :=
  match m.metainfo with
  | some mi => Except.ok mi.name
  | none => Except.error PyErr.attributeError

/-- `TorrentMgr.info_hash`: guarded by the `Uninitialized` check, raising
`TorrentMgrError` in that state. -/
def mgr_info_hash (m : MgrLife) : Except PyErr (List Nat) :=
  if m.lifeState ≠ LifeState.Uninitialized then
    match m.metainfo with
    | some mi => Except.ok mi.infoHash
    | none => Except.error PyErr.attributeError
  else Except.error PyErr.torrentMgrError

/-- `TorrentMgr.percent` (Python float division embedded as rationals):
guarded like `info_hash`. -/
def mgr_percent (m : MgrLife) : Except PyErr ℚ :=
  if m.lifeState ≠ LifeState.Uninitialized then
    match m.metainfo, m.neededCount with
    | some mi, some nc => Except.ok (100 * (1 - (nc : ℚ) / (mi.numPieces : ℚ)))
    | _, _ => Except.error PyErr.attributeError
  else Except.error PyErr.torrentMgrError

/-- The inductive invariant of the coordinator, established by
`initialize`/`start` and preserved by every event handler. -/
structure Inv (cfg : Config) (s : State) : Prop where
  peers_nodup : s.peers.Nodup
  bf_keys_nodup : (s.bitfields.map Prod.fst).Nodup
  bf_keys_sub : ∀ q ∈ s.bitfields.map Prod.fst, q ∈ s.peers
  int_keys_nodup : (s.interested.map Prod.fst).Nodup
  req_keys_nodup : (s.requesting.map Prod.fst).Nodup
  int_req_disj : ∀ q : Nat, alookup s.interested q = none ∨ alookup s.requesting q = none
  needed_keys_nodup : (s.needed.map Prod.fst).Nodup
  needed_range : ∀ i ∈ s.needed.map Prod.fst, i < cfg.numPieces
  have_len : s.haveBf.length = cfg.numPieces
  partition : ∀ i : Nat, i < cfg.numPieces →
      ((alookup s.needed i).isSome ↔ s.haveBf.getD i false = false)
  assigned_nodup : (assignedPieces s).Nodup
  assigned_needed : ∀ i ∈ assignedPieces s, (alookup s.needed i).isSome
  rar : ∀ i : Nat, ∀ occ : Int, ∀ prs : List Nat,
      alookup s.needed i = some (occ, prs) → occ = (prs.length : Int)
  avail : ∀ i : Nat, ∀ occ : Int, ∀ prs : List Nat,
      alookup s.needed i = some (occ, prs) → ∀ q ∈ s.peers,
      (bfOf s q).getD i false = true → q ∈ prs

/-- A two-piece torrent used by the concrete witnesses. -/
def cfgW : Config :=
  ⟨2, 16384, 32768, fun _ => [], fun l => l⟩

/-- Peer proxies that report not-interested and choked. -/
def envQuiet : Env :=
  ⟨fun _ => false, fun _ => true⟩

/-- Peer proxies that report not-interested and already unchoked. -/
def envOpen : Env :=
  ⟨fun _ => false, fun _ => false⟩

/-- Witness run: fresh state, connect peer 7, its bitfield claims both
pieces, connect peer 8, its bitfield claims piece 0, peer 7 chokes. -/
def sW0 : State := initState [false, false]

def sW1 : State := handle_addrs cfgW sW0 [7]

def sW2 : State := (peer_bitfield cfgW envQuiet sW1 7 [true, true]).1

def sW3 : State := handle_addrs cfgW sW2 [8]

def sW4 : State := (peer_bitfield cfgW envQuiet sW3 8 [true, false]).1

def sW5 : State := (peer_choked sW4 7).1

/-- A coordinator with a block outstanding, used by the misdelivery
witness: peer 9 is awaiting offset 16384 of piece 0. -/
def sC7 : State :=
  { peers := [9], bitfields := [(9, [true, true])], haveBf := [false, false],
    needed := [(0, (1, [9])), (1, (1, [9]))], interested := [],
    requesting := [(9, ⟨0, 16384, [5], 2, 0⟩)], setAside := [], tick := 2 }

/-- The S2 torrent of the spec: one piece of length `3 · BLOCK_SIZE`. -/
def cfgS2 : Config :=
  ⟨1, 3 * BLOCK_SIZE, 3 * BLOCK_SIZE, fun _ => [], fun l => l⟩

/-- A coordinator holding a suspended partial entry for piece 0 at offset
`2 · BLOCK_SIZE`, with peer 9 advertising the piece and currently idle. -/
def sS2 : State :=
  { peers := [9], bitfields := [(9, [true])], haveBf := [false],
    needed := [(0, (1, [9]))], interested := [], requesting := [],
    setAside := [⟨0, 32768, [1, 2]⟩], tick := 3 }

/-- A one-piece torrent. -/
def cfg1 : Config :=
  ⟨1, 16384, 16384, fun _ => [], fun l => l⟩

/-- Second-bitfield run: peer 7 connects, advertises the piece, then sends
a second valid bitfield advertising nothing. -/
def s91 : State := handle_addrs cfg1 (initState [false]) [7]

def s92 : State := (peer_bitfield cfg1 envQuiet s91 7 [true]).1

def s93 : State := (peer_bitfield cfg1 envQuiet s92 7 [false]).1

/-- Stale-request run: peer 7 connects to an open (unchoked) swarm, is
requested for a block of piece 0 at tick 1, then four timer events pass
with no block delivered. -/
def sT1 : State := handle_addrs cfgW (initState [false, false]) [7]

def sT2 : State := (peer_bitfield cfgW envOpen sT1 7 [true, true]).1

def sT3 : State := (timer_event cfgW sT2).1

def sT4 : State := (timer_event cfgW sT3).1

def sT5 : State := (timer_event cfgW sT4).1

def sT6 : State := (timer_event cfgW sT5).1

/-! ### Association-list lemmas -/

theorem alookup_isSome_iff {α : Type} (l : List (Nat × α)) (k : Nat) :
    (alookup l k).isSome ↔ k ∈ l.map Prod.fst := by
  induction l with
  | nil => simp [alookup]
  | cons e t ih =>
    obtain ⟨k', v'⟩ := e
    by_cases h : k' = k
    · subst h
      simp [alookup]
    · simp [alookup, h, ih, Ne.symm h]

theorem alookup_eq_none_iff {α : Type} (l : List (Nat × α)) (k : Nat) :
    alookup l k = none ↔ k ∉ l.map Prod.fst := by
  rw [← alookup_isSome_iff]
  cases alookup l k <;> simp

theorem alookup_mem {α : Type} {l : List (Nat × α)} {k : Nat} {v : α}
    (h : alookup l k = some v) : (k, v) ∈ l := by
  induction l with
  | nil => simp [alookup] at h
  | cons e t ih =>
    obtain ⟨k', v'⟩ := e
    by_cases hk : k' = k
    · subst hk
      have hv : v' = v := by simpa [alookup] using h
      subst hv
      exact List.mem_cons_self _ _
    · have h' : alookup t k = some v := by simpa [alookup, hk] using h
      exact List.mem_cons_of_mem _ (ih h')

theorem alookup_of_mem_of_nodup {α : Type} {l : List (Nat × α)} {k : Nat} {v : α}
    (hnd : (l.map Prod.fst).Nodup) (h : (k, v) ∈ l) : alookup l k = some v := by
  induction l with
  | nil => simp at h
  | cons e t ih =>
    obtain ⟨k', v'⟩ := e
    simp only [List.map_cons, List.nodup_cons] at hnd
    rcases List.mem_cons.mp h with h | h
    · injection h with h1 h2
      subst h1
      subst h2
      simp [alookup]
    · have hk : k' ≠ k := by
        intro hkk
        exact hnd.1 (hkk ▸ (List.mem_map.mpr ⟨(k, v), h, rfl⟩))
      simp [alookup, hk, ih hnd.2 h]

theorem alookup_aupdate_self {α : Type} (l : List (Nat × α)) (k : Nat) (v : α) :
    alookup (aupdate l k v) k = some v := by
  induction l with
  | nil => simp [aupdate, alookup]
  | cons e t ih =>
    obtain ⟨k', v'⟩ := e
    by_cases h : k' = k <;> simp [aupdate, alookup, h, ih]

theorem alookup_aupdate_ne {α : Type} (l : List (Nat × α)) (k k' : Nat) (v : α)
    (h : k' ≠ k) : alookup (aupdate l k v) k' = alookup l k' := by
  induction l with
  | nil => simp [aupdate, alookup, Ne.symm h]
  | cons e t ih =>
    obtain ⟨k0, v0⟩ := e
    by_cases hk : k0 = k
    · subst hk
      simp [aupdate, alookup, Ne.symm h]
    · simp only [aupdate, if_neg hk]
      by_cases hk' : k0 = k' <;> simp [alookup, hk', ih]

theorem aupdate_of_not_mem {α : Type} {l : List (Nat × α)} {k : Nat} (v : α)
    (h : k ∉ l.map Prod.fst) : aupdate l k v = l ++ [(k, v)] := by
  induction l with
  | nil => simp [aupdate]
  | cons e t ih =>
    obtain ⟨k', v'⟩ := e
    simp only [List.map_cons, List.mem_cons] at h
    push_neg at h
    simp [aupdate, Ne.symm h.1, ih h.2]

theorem keys_aupdate_of_mem {α : Type} {l : List (Nat × α)} {k : Nat} (v : α)
    (h : k ∈ l.map Prod.fst) : (aupdate l k v).map Prod.fst = l.map Prod.fst := by
  induction l with
  | nil => simp at h
  | cons e t ih =>
    obtain ⟨k', v'⟩ := e
    by_cases hk : k' = k
    · simp [aupdate, hk]
    · simp only [List.map_cons, List.mem_cons] at h
      rcases h with h | h
      · exact (hk h.symm).elim
      · simp [aupdate, hk, ih h]

theorem keys_aupdate_sub {α : Type} (l : List (Nat × α)) (k : Nat) (v : α) :
    ∀ x ∈ (aupdate l k v).map Prod.fst, x ∈ l.map Prod.fst ∨ x = k := by
  by_cases h : k ∈ l.map Prod.fst
  · rw [keys_aupdate_of_mem v h]
    exact fun x hx => Or.inl hx
  · rw [aupdate_of_not_mem v h]
    intro x hx
    simp only [List.map_append, List.mem_append] at hx
    rcases hx with hx | hx
    · exact Or.inl hx
    · simp at hx
      exact Or.inr hx

theorem keys_nodup_aupdate {α : Type} {l : List (Nat × α)} {k : Nat} (v : α)
    (h : (l.map Prod.fst).Nodup) : ((aupdate l k v).map Prod.fst).Nodup := by
  by_cases hk : k ∈ l.map Prod.fst
  · rw [keys_aupdate_of_mem v hk]; exact h
  · rw [aupdate_of_not_mem v hk]
    simp only [List.map_append, List.map_cons, List.map_nil]
    refine List.Nodup.append h (List.nodup_singleton k) ?_
    intro x hx hx2
    rw [List.mem_singleton] at hx2
    subst hx2
    exact hk hx

theorem map_aupdate_of_lookup {α β : Type} {l : List (Nat × α)} {k : Nat} {w : α}
    (v : α) (g : Nat × α → β) (hl : alookup l k = some w) (hg : g (k, v) = g (k, w)) :
    (aupdate l k v).map g = l.map g := by
  induction l with
  | nil => simp [alookup] at hl
  | cons e t ih =>
    obtain ⟨k', v'⟩ := e
    by_cases hk : k' = k
    · subst hk
      have hv : v' = w := by simpa [alookup] using hl
      subst hv
      simp [aupdate, hg]
    · have hl' : alookup t k = some w := by simpa [alookup, hk] using hl
      simp [aupdate, hk, ih hl']

theorem aerase_sublist {α : Type} (l : List (Nat × α)) (k : Nat) :
    List.Sublist (aerase l k) l := by
  induction l with
  | nil => simp [aerase]
  | cons e t ih =>
    obtain ⟨k', v'⟩ := e
    by_cases h : k' = k
    · simp [aerase, h, List.sublist_cons_self (k', v') t]
    · simpa [aerase, h] using ih.cons₂ (k', v')

theorem alookup_aerase_ne {α : Type} (l : List (Nat × α)) (k k' : Nat)
    (h : k' ≠ k) : alookup (aerase l k) k' = alookup l k' := by
  induction l with
  | nil => simp [aerase]
  | cons e t ih =>
    obtain ⟨k0, v0⟩ := e
    by_cases hk : k0 = k
    · subst hk
      simp [aerase, alookup, Ne.symm h]
    · simp only [aerase, if_neg hk]
      by_cases hk' : k0 = k' <;> simp [alookup, hk', ih]

theorem alookup_aerase_self {α : Type} {l : List (Nat × α)} {k : Nat}
    (hnd : (l.map Prod.fst).Nodup) : alookup (aerase l k) k = none := by
  induction l with
  | nil => simp [aerase, alookup]
  | cons e t ih =>
    obtain ⟨k', v'⟩ := e
    simp only [List.map_cons, List.nodup_cons] at hnd
    by_cases h : k' = k
    · subst h
      rw [aerase, if_pos rfl, alookup_eq_none_iff]
      exact hnd.1
    · simp [aerase, h, alookup, ih hnd.2]

theorem aerase_of_lookup_none {α : Type} {l : List (Nat × α)} {k : Nat}
    (h : alookup l k = none) : aerase l k = l := by
  induction l with
  | nil => simp [aerase]
  | cons e t ih =>
    obtain ⟨k', v'⟩ := e
    by_cases hk : k' = k
    · simp [alookup, hk] at h
    · have h' : alookup t k = none := by simpa [alookup, hk] using h
      simp [aerase, hk, ih h']

theorem perm_aerase {α : Type} {l : List (Nat × α)} {k : Nat} {v : α}
    (h : alookup l k = some v) : l.Perm ((k, v) :: aerase l k) := by
  induction l with
  | nil => simp [alookup] at h
  | cons e t ih =>
    obtain ⟨k', v'⟩ := e
    by_cases hk : k' = k
    · subst hk
      have hv : v' = v := by simpa [alookup] using h
      subst hv
      simp [aerase]
    · have h' : alookup t k = some v := by simpa [alookup, hk] using h
      simp only [aerase, if_neg hk]
      exact ((ih h').cons (k', v')).trans (List.Perm.swap _ _ _)

/-! ### Set-bit lemmas -/

theorem mem_setBits {b : List Bool} {i : Nat} :
    i ∈ setBits b ↔ i < b.length ∧ b.getD i false = true := by
  simp [setBits, List.mem_filter, List.mem_range]

theorem setBits_nodup (b : List Bool) : (setBits b).Nodup :=
  (List.nodup_range _).filter _

theorem mem_zeroBits {b : List Bool} {i : Nat} :
    i ∈ zeroBits b ↔ i < b.length ∧ b.getD i false = false := by
  simp [zeroBits, List.mem_filter, List.mem_range]

theorem zeroBits_nodup (b : List Bool) : (zeroBits b).Nodup :=
  (List.nodup_range _).filter _

/-! ### The `_rarest` sort order -/

theorem listLtB_irrefl : ∀ a : List Nat, listLtB a a = false
  | [] => rfl
  | a :: as => by simp [listLtB, listLtB_irrefl as]

theorem listLtB_connex : ∀ a b : List Nat,
    listLtB a b = false → listLtB b a = false → a = b
  | [], [], _, _ => rfl
  | [], _ :: _, h, _ => by simp [listLtB] at h
  | _ :: _, [], _, h => by simp [listLtB] at h
  | a :: as, b :: bs, h1, h2 => by
      simp only [listLtB] at h1 h2
      by_cases hab : a < b
      · rw [if_pos hab] at h1
        exact absurd h1 (by simp)
      · by_cases hba : b < a
        · rw [if_pos hba] at h2
          exact absurd h2 (by simp)
        · have hE : a = b := by omega
          rw [if_neg hab, if_neg hba] at h1
          rw [if_neg hba, if_neg hab] at h2
          rw [hE, listLtB_connex as bs h1 h2]

theorem listLtB_trans : ∀ a b c : List Nat,
    listLtB a b = true → listLtB b c = true → listLtB a c = true
  | [], [], _, h1, _ => by simp [listLtB] at h1
  | [], _ :: _, [], _, h2 => by simp [listLtB] at h2
  | [], _ :: _, _ :: _, _, _ => by simp [listLtB]
  | _ :: _, [], _, h1, _ => by simp [listLtB] at h1
  | _ :: _, _ :: _, [], _, h2 => by simp [listLtB] at h2
  | a :: as, b :: bs, c :: cs, h1, h2 => by
      simp only [listLtB] at h1 h2 ⊢
      by_cases hab : a < b
      · by_cases hbc : b < c
        · rw [if_pos (by omega)]
        · by_cases hcb : c < b
          · rw [if_neg hbc, if_pos hcb] at h2
            exact absurd h2 (by simp)
          · have : b = c := by omega
            rw [if_pos (by omega)]
      · by_cases hba : b < a
        · rw [if_neg hab, if_pos hba] at h1
          exact absurd h1 (by simp)
        · have hE : a = b := by omega
          rw [if_neg hab, if_neg hba] at h1
          by_cases hbc : b < c
          · rw [if_pos (by omega)]
          · by_cases hcb : c < b
            · rw [if_neg hbc, if_pos hcb] at h2
              exact absurd h2 (by simp)
            · have hE2 : b = c := by omega
              rw [if_neg hbc, if_neg hcb] at h2
              rw [if_neg (by omega), if_neg (by omega)]
              exact listLtB_trans as bs cs h1 h2

theorem rarLeB_fst_le {x y : Int × List Nat × Nat} (h : rarLeB x y = true) :
    x.1 ≤ y.1 := by
  unfold rarLeB at h
  split_ifs at h <;> omega

theorem rarLeB_total (x y : Int × List Nat × Nat) :
    rarLeB x y = true ∨ rarLeB y x = true := by
  unfold rarLeB
  by_cases h1 : x.1 < y.1
  · left
    simp [h1]
  · by_cases h2 : y.1 < x.1
    · right
      simp [h2]
    · by_cases l1 : listLtB x.2.1 y.2.1 = true
      · left
        simp [h1, h2, l1]
      · by_cases l2 : listLtB y.2.1 x.2.1 = true
        · right
          simp [h1, h2, l2]
        · by_cases n1 : x.2.2 ≤ y.2.2
          · left
            simp [h1, h2, l1, l2, n1]
          · right
            simp [h1, h2, l1, l2, Nat.le_of_not_le n1]

theorem rarLeB_trans (x y z : Int × List Nat × Nat)
    (hxy : rarLeB x y = true) (hyz : rarLeB y z = true) : rarLeB x z = true := by
  have fxy := rarLeB_fst_le hxy
  have fyz := rarLeB_fst_le hyz
  unfold rarLeB at hxy hyz ⊢
  by_cases h1 : x.1 < z.1
  · simp [h1]
  · have hxz : x.1 = z.1 := by omega
    have hxy1 : x.1 = y.1 := by omega
    have hyz1 : y.1 = z.1 := by omega
    rw [if_neg (by omega), if_neg (by omega)] at hxy
    rw [if_neg (by omega), if_neg (by omega)] at hyz
    rw [if_neg (by omega), if_neg (by omega)]
    by_cases la : listLtB x.2.1 y.2.1 = true
    · by_cases lb : listLtB y.2.1 z.2.1 = true
      · simp [listLtB_trans _ _ _ la lb]
      · by_cases lc : listLtB z.2.1 y.2.1 = true
        · rw [if_neg lb, if_pos lc] at hyz
          exact absurd hyz (by simp)
        · have hE : y.2.1 = z.2.1 :=
            listLtB_connex _ _ (by simpa using lb) (by simpa using lc)
          rw [← hE]
          simp [la]
    · by_cases ld : listLtB y.2.1 x.2.1 = true
      · rw [if_neg la, if_pos ld] at hxy
        exact absurd hxy (by simp)
      · have hE : x.2.1 = y.2.1 :=
          listLtB_connex _ _ (by simpa using la) (by simpa using ld)
        rw [if_neg la, if_neg ld] at hxy
        by_cases lb : listLtB y.2.1 z.2.1 = true
        · rw [hE]
          simp [lb]
        · by_cases lc : listLtB z.2.1 y.2.1 = true
          · rw [if_neg lb, if_pos lc] at hyz
            exact absurd hyz (by simp)
          · have hE2 : y.2.1 = z.2.1 :=
              listLtB_connex _ _ (by simpa using lb) (by simpa using lc)
            rw [if_neg lb, if_neg lc] at hyz
            simp only [decide_eq_true_eq] at hxy hyz
            rw [hE, hE2]
            simp [listLtB_irrefl]
            omega

instance rarLe.isTotal : IsTotal (Int × List Nat × Nat) rarLe :=
  ⟨fun x y => rarLeB_total x y⟩

instance rarLe.isTrans : IsTrans (Int × List Nat × Nat) rarLe :=
  ⟨fun x y z => rarLeB_trans x y z⟩

theorem rarest_pairwise (s : State) : (rarest s).Pairwise rarLe :=
  List.sorted_insertionSort rarLe _

theorem mem_rarest_iff (s : State) (e : Int × List Nat × Nat) :
    e ∈ rarest s ↔ (e.2.2, e.1, e.2.1) ∈ s.needed ∧ e.1 ≠ 0 := by
  unfold rarest
  rw [List.mem_insertionSort]
  constructor
  · intro h
    rcases List.mem_map.mp h with ⟨a, ha, hae⟩
    rcases List.mem_filter.mp ha with ⟨ha1, ha2⟩
    subst hae
    simp only [Bool.not_eq_eq_eq_not, Bool.not_true, beq_eq_false_iff_ne, ne_eq] at ha2
    constructor
    · simpa using ha1
    · simpa using ha2
  · rintro ⟨h1, h2⟩
    refine List.mem_map.mpr ⟨(e.2.2, e.1, e.2.1), List.mem_filter.mpr ⟨h1, by simpa using h2⟩, rfl⟩

/-- The first entry of a pairwise-ordered list satisfying a predicate is a
lower bound for every entry satisfying it. -/
theorem find?_min_of_pairwise {α : Type} {r : α → α → Prop} {p : α → Bool} :
    ∀ {l : List α} {x : α}, l.Pairwise r → l.find? p = some x →
      ∀ y ∈ l, p y = true → (x = y ∨ r x y) := by
  intro l
  induction l with
  | nil =>
    intro x _ hf
    simp at hf
  | cons a t ih =>
    intro x hp hf y hy hpy
    rw [List.pairwise_cons] at hp
    by_cases ha : p a = true
    · rw [List.find?_cons_of_pos _ ha] at hf
      have hx : x = a := by
        simpa using hf.symm
      subst hx
      rcases List.mem_cons.mp hy with hy | hy
      · exact Or.inl hy.symm
      · exact Or.inr (hp.1 y hy)
    · rw [List.find?_cons_of_neg _ (by simpa using ha)] at hf
      rcases List.mem_cons.mp hy with hy | hy
      · subst hy
        exact absurd hpy ha
      · exact ih hp.2 hf y hy hpy

/-! ### The `_needed` update loops -/

theorem keys_addPeer1 (p : Nat) (nd : List (Nat × Int × List Nat)) (piece : Nat) :
    (addPeer1 p nd piece).map Prod.fst = nd.map Prod.fst := by
  unfold addPeer1
  cases h : alookup nd piece with
  | none => rfl
  | some v =>
    obtain ⟨occ, prs⟩ := v
    have hmem : piece ∈ nd.map Prod.fst := (alookup_isSome_iff nd piece).mp (by simp [h])
    by_cases hc : p ∈ prs
    · simp [hc]
    · simp [hc, keys_aupdate_of_mem ((occ + 1, prs ++ [p]) : Int × List Nat) hmem]

theorem keys_addPeerNeeded (p : Nat) (pieces : List Nat) :
    ∀ nd, (addPeerNeeded p nd pieces).map Prod.fst = nd.map Prod.fst := by
  induction pieces with
  | nil => intro nd; rfl
  | cons j t ih =>
    intro nd
    show (addPeerNeeded p (addPeer1 p nd j) t).map Prod.fst = _
    rw [ih, keys_addPeer1]

theorem alookup_addPeer1_ne (p : Nat) (nd : List (Nat × Int × List Nat)) (piece i : Nat)
    (h : i ≠ piece) : alookup (addPeer1 p nd piece) i = alookup nd i := by
  unfold addPeer1
  cases hl : alookup nd piece with
  | none => rfl
  | some v =>
    obtain ⟨occ, prs⟩ := v
    by_cases hc : p ∈ prs
    · simp [hc]
    · simp [hc, alookup_aupdate_ne nd piece i ((occ + 1, prs ++ [p]) : Int × List Nat) h]

theorem alookup_addPeer1_self (p : Nat) (nd : List (Nat × Int × List Nat)) (piece : Nat) :
    alookup (addPeer1 p nd piece) piece = (alookup nd piece).map (addVal p) := by
  unfold addPeer1
  cases hl : alookup nd piece with
  | none => simp [hl]
  | some v =>
    obtain ⟨occ, prs⟩ := v
    by_cases hc : p ∈ prs
    · simp [hc, addVal, hl]
    · simp [hc, addVal, hl, alookup_aupdate_self]

theorem alookup_addPeerNeeded_not_mem (p : Nat) (pieces : List Nat) :
    ∀ nd i, i ∉ pieces → alookup (addPeerNeeded p nd pieces) i = alookup nd i := by
  induction pieces with
  | nil => intro nd i _; rfl
  | cons j t ih =>
    intro nd i hi
    show alookup (addPeerNeeded p (addPeer1 p nd j) t) i = _
    rw [ih _ i (fun h => hi (List.mem_cons_of_mem _ h)),
        alookup_addPeer1_ne p nd j i (fun h => hi (h ▸ List.mem_cons_self _ _))]

theorem alookup_addPeerNeeded_mem (p : Nat) (pieces : List Nat) :
    ∀ nd i, pieces.Nodup → i ∈ pieces →
      alookup (addPeerNeeded p nd pieces) i = (alookup nd i).map (addVal p) := by
  induction pieces with
  | nil => intro nd i _ hi; simp at hi
  | cons j t ih =>
    intro nd i hnd hi
    rw [List.nodup_cons] at hnd
    show alookup (addPeerNeeded p (addPeer1 p nd j) t) i = _
    rcases List.mem_cons.mp hi with hi | hi
    · subst hi
      rw [alookup_addPeerNeeded_not_mem p t _ i hnd.1, alookup_addPeer1_self]
    · have hij : i ≠ j := fun h => hnd.1 (h ▸ hi)
      rw [ih _ i hnd.2 hi, alookup_addPeer1_ne p nd j i hij]

theorem keys_removePeer1 (p : Nat) (nd : List (Nat × Int × List Nat)) (piece : Nat) :
    (removePeer1 p nd piece).map Prod.fst = nd.map Prod.fst := by
  unfold removePeer1
  cases h : alookup nd piece with
  | none => rfl
  | some v =>
    obtain ⟨occ, prs⟩ := v
    have hmem : piece ∈ nd.map Prod.fst := (alookup_isSome_iff nd piece).mp (by simp [h])
    by_cases hc : p ∈ prs
    · simp [hc, keys_aupdate_of_mem ((occ - 1, prs.erase p) : Int × List Nat) hmem]
    · simp [hc]

theorem keys_removePeerNeeded (p : Nat) (pieces : List Nat) :
    ∀ nd, (removePeerNeeded p nd pieces).map Prod.fst = nd.map Prod.fst := by
  induction pieces with
  | nil => intro nd; rfl
  | cons j t ih =>
    intro nd
    show (removePeerNeeded p (removePeer1 p nd j) t).map Prod.fst = _
    rw [ih, keys_removePeer1]

theorem alookup_removePeer1_ne (p : Nat) (nd : List (Nat × Int × List Nat)) (piece i : Nat)
    (h : i ≠ piece) : alookup (removePeer1 p nd piece) i = alookup nd i := by
  unfold removePeer1
  cases hl : alookup nd piece with
  | none => rfl
  | some v =>
    obtain ⟨occ, prs⟩ := v
    by_cases hc : p ∈ prs
    · simp [hc, alookup_aupdate_ne nd piece i ((occ - 1, prs.erase p) : Int × List Nat) h]
    · simp [hc]

theorem alookup_removePeer1_self (p : Nat) (nd : List (Nat × Int × List Nat)) (piece : Nat) :
    alookup (removePeer1 p nd piece) piece = (alookup nd piece).map (removeVal p) := by
  unfold removePeer1
  cases hl : alookup nd piece with
  | none => simp [hl]
  | some v =>
    obtain ⟨occ, prs⟩ := v
    by_cases hc : p ∈ prs
    · simp [hc, removeVal, hl, alookup_aupdate_self]
    · simp [hc, removeVal, hl]

theorem alookup_removePeerNeeded_not_mem (p : Nat) (pieces : List Nat) :
    ∀ nd i, i ∉ pieces → alookup (removePeerNeeded p nd pieces) i = alookup nd i := by
  induction pieces with
  | nil => intro nd i _; rfl
  | cons j t ih =>
    intro nd i hi
    show alookup (removePeerNeeded p (removePeer1 p nd j) t) i = _
    rw [ih _ i (fun h => hi (List.mem_cons_of_mem _ h)),
        alookup_removePeer1_ne p nd j i (fun h => hi (h ▸ List.mem_cons_self _ _))]

theorem alookup_removePeerNeeded_mem (p : Nat) (pieces : List Nat) :
    ∀ nd i, pieces.Nodup → i ∈ pieces →
      alookup (removePeerNeeded p nd pieces) i = (alookup nd i).map (removeVal p) := by
  induction pieces with
  | nil => intro nd i _ hi; simp at hi
  | cons j t ih =>
    intro nd i hnd hi
    rw [List.nodup_cons] at hnd
    show alookup (removePeerNeeded p (removePeer1 p nd j) t) i = _
    rcases List.mem_cons.mp hi with hi | hi
    · subst hi
      rw [alookup_removePeerNeeded_not_mem p t _ i hnd.1, alookup_removePeer1_self]
    · have hij : i ≠ j := fun h => hnd.1 (h ▸ hi)
      rw [ih _ i hnd.2 hi, alookup_removePeer1_ne p nd j i hij]

/-! ### Connecting to fresh peers -/

theorem handle_addrs_spec (cfg : Config) :
    ∀ (addrs : List Nat) (s : State), addrs.Nodup →
      (∀ p ∈ addrs, p ∉ s.bitfields.map Prod.fst) →
      handle_addrs cfg s addrs =
        { s with peers := s.peers ++ addrs,
                 bitfields := s.bitfields ++
                   addrs.map (fun p => (p, List.replicate cfg.numPieces false)) } := by
  intro addrs
  induction addrs with
  | nil => intro s _ _; simp [handle_addrs]
  | cons p t ih =>
    intro s hnd hfresh
    rw [List.nodup_cons] at hnd
    have hb : p ∉ s.bitfields.map Prod.fst := hfresh p (List.mem_cons_self _ _)
    have hstep : handle_addrs cfg s (p :: t) =
        handle_addrs cfg
          { s with peers := s.peers ++ [p],
                   bitfields := s.bitfields ++ [(p, List.replicate cfg.numPieces false)] } t := by
      show handle_addrs cfg
          { s with peers := s.peers ++ [p],
                   bitfields := aupdate s.bitfields p (List.replicate cfg.numPieces false) } t = _
      rw [aupdate_of_not_mem _ hb]
    rw [hstep, ih _ hnd.2 ?_]
    · simp
    · intro q hq hq2
      rw [List.map_append] at hq2
      rcases List.mem_append.mp hq2 with h2 | h2
      · exact hfresh q (List.mem_cons_of_mem _ hq) h2
      · simp at h2
        subst h2
        exact hnd.1 hq

/-! ### Characterizations of `_request` and `_show_interest` -/

theorem request_eq_of_interested (cfg : Config) (s : State) (p : Nat) (r : Resv)
    (hI : alookup s.interested p = some r) :
    request cfg s p =
      ({ s with interested := aerase s.interested p,
                requesting := aupdate s.requesting p ⟨r.piece, r.got, r.hash, s.tick, 0⟩ },
       [Effect.request p r.piece r.got (bytes_to_request cfg r.piece (r.got : Int))]) := by
  simp [request, hI, alookup_aupdate_self]

theorem request_eq_of_requesting (cfg : Config) (s : State) (p : Nat) (a : ActiveReq)
    (hI : alookup s.interested p = none) (hR : alookup s.requesting p = some a) :
    request cfg s p =
      (s, [Effect.request p a.piece a.got (bytes_to_request cfg a.piece (a.got : Int))]) := by
  simp [request, hI, hR]

theorem request_eq_of_none (cfg : Config) (s : State) (p : Nat)
    (hI : alookup s.interested p = none) (hR : alookup s.requesting p = none) :
    request cfg s p = (s, []) := by
  simp [request, hI, hR]

theorem show_interest_eq_choked (cfg : Config) (env : Env) (s : State) (p : Nat)
    (hc : env.isPeerChoked p = true) :
    show_interest cfg env s p =
      (s, if env.isInterested p then [] else [Effect.interested p]) := by
  simp [show_interest, hc]

theorem show_interest_eq_unchoked (cfg : Config) (env : Env) (s : State) (p : Nat)
    (hc : env.isPeerChoked p = false) :
    show_interest cfg env s p =
      ((request cfg s p).1,
       (if env.isInterested p then [] else [Effect.interested p]) ++ (request cfg s p).2) := by
  simp [show_interest, hc]

/-! ### Permutation lemmas for the assigned pieces -/

theorem assignedOf_install_perm (intr : List (Nat × Resv)) (reqs : List (Nat × ActiveReq))
    (sa : List Part) (p : Nat) (r : Resv) (hI : alookup intr p = none) :
    (assignedOf (aupdate intr p r) reqs sa).Perm (r.piece :: assignedOf intr reqs sa) := by
  unfold assignedOf
  rw [aupdate_of_not_mem r ((alookup_eq_none_iff intr p).mp hI)]
  simp only [List.map_append, List.map_cons, List.map_nil]
  have h1 : (List.map (fun e => e.2.piece) intr ++ [r.piece]).Perm
      (r.piece :: List.map (fun e => e.2.piece) intr) := List.perm_append_singleton _ _
  exact (h1.append_right _).append_right _

theorem assignedOf_move (intr : List (Nat × Resv)) (reqs : List (Nat × ActiveReq))
    (sa : List Part) (p : Nat) (r : Resv) (a : ActiveReq)
    (hI : alookup intr p = some r) (hR : alookup reqs p = none) (hpc : a.piece = r.piece) :
    (assignedOf (aerase intr p) (aupdate reqs p a) sa).Perm (assignedOf intr reqs sa) := by
  unfold assignedOf
  rw [aupdate_of_not_mem a ((alookup_eq_none_iff reqs p).mp hR)]
  simp only [List.map_append, List.map_cons, List.map_nil]
  refine List.Perm.append_right _ ?_
  have hmap : (intr.map (fun e => e.2.piece)).Perm
      (r.piece :: (aerase intr p).map (fun e => e.2.piece)) :=
    (perm_aerase hI).map _
  have h1 : ((aerase intr p).map (fun e => e.2.piece) ++
        (reqs.map (fun e => e.2.piece) ++ [a.piece])).Perm
      (a.piece :: ((aerase intr p).map (fun e => e.2.piece) ++
        reqs.map (fun e => e.2.piece))) := by
    rw [← List.append_assoc]
    exact List.perm_append_singleton _ _
  refine h1.trans ?_
  rw [hpc]
  show (((r.piece :: (aerase intr p).map (fun e => e.2.piece)) ++
      reqs.map (fun e => e.2.piece))).Perm _
  exact hmap.symm.append_right _

theorem assignedOf_spill (intr : List (Nat × Resv)) (reqs : List (Nat × ActiveReq))
    (sa : List Part) (p : Nat) (a : ActiveReq) (hR : alookup reqs p = some a) :
    (assignedOf intr (aerase reqs p) (sa ++ [(⟨a.piece, a.got, a.hash⟩ : Part)])).Perm
      (assignedOf intr reqs sa) := by
  unfold assignedOf
  simp only [List.map_append, List.map_cons, List.map_nil]
  have hmap : (reqs.map (fun e => e.2.piece)).Perm
      (a.piece :: (aerase reqs p).map (fun e => e.2.piece)) :=
    (perm_aerase hR).map _
  rw [List.append_assoc, List.append_assoc]
  refine List.Perm.append_left _ ?_
  have h1 : ((aerase reqs p).map (fun e => e.2.piece) ++
        (sa.map (fun e => e.piece) ++ [a.piece])).Perm
      (a.piece :: ((aerase reqs p).map (fun e => e.2.piece) ++ sa.map (fun e => e.piece))) := by
    rw [← List.append_assoc]
    exact List.perm_append_singleton _ _
  refine h1.trans ?_
  show ((a.piece :: (aerase reqs p).map (fun e => e.2.piece)) ++
      sa.map (fun e => e.piece)).Perm _
  exact hmap.symm.append_right _

theorem assignedOf_erase_int (intr : List (Nat × Resv)) (reqs : List (Nat × ActiveReq))
    (sa : List Part) (p : Nat) :
    List.Sublist (assignedOf (aerase intr p) reqs sa) (assignedOf intr reqs sa) := by
  unfold assignedOf
  exact (((aerase_sublist intr p).map _).append (List.Sublist.refl _)).append
    (List.Sublist.refl _)

theorem assignedOf_erase_req (intr : List (Nat × Resv)) (reqs : List (Nat × ActiveReq))
    (sa : List Part) (p : Nat) :
    List.Sublist (assignedOf intr (aerase reqs p) sa) (assignedOf intr reqs sa) := by
  unfold assignedOf
  exact ((List.Sublist.refl _).append ((aerase_sublist reqs p).map _)).append
    (List.Sublist.refl _)

theorem assignedOf_update_req_same (intr : List (Nat × Resv)) (reqs : List (Nat × ActiveReq))
    (sa : List Part) (p : Nat) (a b : ActiveReq)
    (hR : alookup reqs p = some a) (hpc : b.piece = a.piece) :
    assignedOf intr (aupdate reqs p b) sa = assignedOf intr reqs sa := by
  unfold assignedOf
  rw [map_aupdate_of_lookup b _ hR (by simpa using hpc)]

theorem assignedOf_erase_sa_perm (intr : List (Nat × Resv)) (reqs : List (Nat × ActiveReq))
    (sa : List Part) (e : Part) (he : e ∈ sa) :
    (assignedOf intr reqs sa).Perm (e.piece :: assignedOf intr reqs (sa.erase e)) := by
  unfold assignedOf
  have hsa : (sa.map (fun x => x.piece)).Perm
      (e.piece :: (sa.erase e).map (fun x => x.piece)) :=
    (List.perm_cons_erase he).map _
  exact (List.Perm.append_left _ hsa).trans List.perm_middle

/-! ### Invariant transfer for assignment-only updates -/

theorem Inv.withAssign {cfg : Config} {s : State} (hInv : Inv cfg s)
    (intr : List (Nat × Resv)) (reqs : List (Nat × ActiveReq)) (sa : List Part)
    (hik : (intr.map Prod.fst).Nodup)
    (hrk : (reqs.map Prod.fst).Nodup)
    (hd : ∀ q : Nat, alookup intr q = none ∨ alookup reqs q = none)
    (hnd : (assignedOf intr reqs sa).Nodup)
    (hn : ∀ i ∈ assignedOf intr reqs sa, (alookup s.needed i).isSome) :
    Inv cfg { s with interested := intr, requesting := reqs, setAside := sa } := by
  constructor
  · exact hInv.peers_nodup
  · exact hInv.bf_keys_nodup
  · exact hInv.bf_keys_sub
  · exact hik
  · exact hrk
  · exact hd
  · exact hInv.needed_keys_nodup
  · exact hInv.needed_range
  · exact hInv.have_len
  · exact hInv.partition
  · exact hnd
  · exact hn
  · exact hInv.rar
  · exact hInv.avail

/-! ### Characterizations of `_check_interest` -/

theorem check_interest_eq_busy (cfg : Config) (env : Env) (s : State) (p : Nat)
    (h : (alookup s.interested p).isSome = true ∨ (alookup s.requesting p).isSome = true) :
    check_interest cfg env s p = (s, []) := by
  unfold check_interest
  rcases h with h | h <;> simp [h]

theorem check_interest_eq_resume (cfg : Config) (env : Env) (s : State) (p : Nat) (e : Part)
    (hI : alookup s.interested p = none) (hR : alookup s.requesting p = none)
    (hf : s.setAside.find? (fun e => (ofInterest s p).contains e.piece) = some e) :
    check_interest cfg env s p =
      show_interest cfg env
        { s with setAside := s.setAside.erase e,
                 interested := aupdate s.interested p ⟨e.piece, e.got, e.hash, s.tick⟩ } p := by
  have hm : e.piece ∈ ofInterest s p := by simpa using List.find?_some hf
  have hlen : (ofInterest s p).length > 0 := List.length_pos.mpr (List.ne_nil_of_mem hm)
  have hf' : s.setAside.find? (fun e => decide (e.piece ∈ ofInterest s p)) = some e := by
    simpa using hf
  unfold check_interest
  simp [hI, hR, hf', hlen]

theorem check_interest_eq_rarest (cfg : Config) (env : Env) (s : State) (p : Nat)
    (r : Int × List Nat × Nat)
    (hI : alookup s.interested p = none) (hR : alookup s.requesting p = none)
    (hf : s.setAside.find? (fun e => (ofInterest s p).contains e.piece) = none)
    (hr : (rarest s).find?
        (fun r => (ofInterest s p).contains r.2.2 && !((dontConsider s).contains r.2.2)) =
        some r) :
    check_interest cfg env s p =
      show_interest cfg env
        { s with interested := aupdate s.interested p ⟨r.2.2, 0, [], s.tick⟩ } p := by
  have hp := List.find?_some hr
  rw [Bool.and_eq_true] at hp
  have hm : r.2.2 ∈ ofInterest s p := by simpa using hp.1
  have hlen : (ofInterest s p).length > 0 := List.length_pos.mpr (List.ne_nil_of_mem hm)
  have hf' : s.setAside.find? (fun e => decide (e.piece ∈ ofInterest s p)) = none := by
    simpa using hf
  have hr' : (rarest s).find?
      (fun r => decide (r.2.2 ∈ ofInterest s p) && !decide (r.2.2 ∈ dontConsider s)) =
      some r := by
    simpa using hr
  unfold check_interest
  simp [hI, hR, hf', hr', hlen]

theorem check_interest_eq_fall (cfg : Config) (env : Env) (s : State) (p : Nat)
    (hI : alookup s.interested p = none) (hR : alookup s.requesting p = none)
    (h : (ofInterest s p).length = 0 ∨
      (s.setAside.find? (fun e => (ofInterest s p).contains e.piece) = none ∧
       (rarest s).find?
         (fun r => (ofInterest s p).contains r.2.2 && !((dontConsider s).contains r.2.2)) =
         none)) :
    check_interest cfg env s p =
      (s, if env.isInterested p then [Effect.notInterested p, Effect.connect 1] else []) := by
  unfold check_interest
  rcases h with h | ⟨h1, h2⟩
  · simp [hI, hR, h]
    cases env.isInterested p <;> simp
  · have h1' : s.setAside.find? (fun e => decide (e.piece ∈ ofInterest s p)) = none := by
      simpa using h1
    have h2' : (rarest s).find?
        (fun r => decide (r.2.2 ∈ ofInterest s p) && !decide (r.2.2 ∈ dontConsider s)) =
        none := by
      simpa using h2
    by_cases hlen : (ofInterest s p).length > 0
    · simp [hI, hR, h1', h2', hlen]
      cases env.isInterested p <;> simp
    · simp [hI, hR, hlen]
      cases env.isInterested p <;> simp

/-! ### Invariant preservation through the interest machinery -/

theorem inv_request (cfg : Config) (s : State) (p : Nat) (hInv : Inv cfg s) :
    Inv cfg (request cfg s p).1 := by
  cases hI : alookup s.interested p with
  | none =>
    cases hR : alookup s.requesting p with
    | none =>
      rw [request_eq_of_none cfg s p hI hR]
      exact hInv
    | some a =>
      rw [request_eq_of_requesting cfg s p a hI hR]
      exact hInv
  | some r =>
    have hR : alookup s.requesting p = none := by
      rcases hInv.int_req_disj p with h | h
      · rw [h] at hI; cases hI
      · exact h
    rw [request_eq_of_interested cfg s p r hI]
    refine hInv.withAssign _ _ _ ?_ ?_ ?_ ?_ ?_
    · exact ((aerase_sublist _ _).map _).nodup hInv.int_keys_nodup
    · exact keys_nodup_aupdate _ hInv.req_keys_nodup
    · intro q
      by_cases hq : q = p
      · subst hq
        exact Or.inl (alookup_aerase_self hInv.int_keys_nodup)
      · rw [alookup_aerase_ne _ _ _ hq, alookup_aupdate_ne _ _ _ _ hq]
        exact hInv.int_req_disj q
    · exact (assignedOf_move _ _ _ p r _ hI hR rfl).nodup_iff.mpr hInv.assigned_nodup
    · intro i hi
      exact hInv.assigned_needed i ((assignedOf_move _ _ _ p r _ hI hR rfl).mem_iff.mp hi)

theorem inv_show_interest (cfg : Config) (env : Env) (s : State) (p : Nat) (hInv : Inv cfg s) :
    Inv cfg (show_interest cfg env s p).1 := by
  cases hc : env.isPeerChoked p with
  | false =>
    rw [show_interest_eq_unchoked cfg env s p hc]
    exact inv_request cfg s p hInv
  | true =>
    rw [show_interest_eq_choked cfg env s p hc]
    exact hInv

theorem getD_zipWith_and (a b : List Bool) (i : Nat)
    (h : i < (List.zipWith (fun x y => x && y) a b).length) :
    (List.zipWith (fun x y => x && y) a b).getD i false =
      (a.getD i false && b.getD i false) := by
  induction a generalizing b i with
  | nil => simp at h
  | cons x xs ih =>
    cases b with
    | nil => simp at h
    | cons y ys =>
      cases i with
      | zero => rfl
      | succ j =>
        simp only [List.zipWith_cons_cons, List.getD_cons_succ] at h ⊢
        exact ih ys j (by simpa using h)

theorem getD_map_not (a : List Bool) (i : Nat) (h : i < a.length) :
    (a.map (fun b => !b)).getD i false = !(a.getD i false) := by
  induction a generalizing i with
  | nil => simp at h
  | cons x xs ih =>
    cases i with
    | zero => rfl
    | succ j =>
      simp only [List.map_cons, List.getD_cons_succ]
      exact ih j (by simpa using h)

theorem ofInterest_spec (s : State) (p i : Nat) (hi : i ∈ ofInterest s p) :
    i < s.haveBf.length ∧ s.haveBf.getD i false = false ∧ (bfOf s p).getD i false = true := by
  unfold ofInterest at hi
  rw [mem_setBits] at hi
  obtain ⟨hl, hv⟩ := hi
  rw [getD_zipWith_and _ _ _ hl] at hv
  rw [Bool.and_eq_true] at hv
  have hlen := hl
  rw [List.length_zipWith, List.length_map] at hlen
  have hia : i < s.haveBf.length := by omega
  refine ⟨hia, ?_, hv.2⟩
  have hm := hv.1
  rw [getD_map_not _ _ (by simpa using hia)] at hm
  simpa using hm

theorem ofInterest_isSome (cfg : Config) (s : State) (p i : Nat)
    (hlen : s.haveBf.length = cfg.numPieces)
    (hpart : ∀ i : Nat, i < cfg.numPieces →
      ((alookup s.needed i).isSome ↔ s.haveBf.getD i false = false))
    (hi : i ∈ ofInterest s p) : (alookup s.needed i).isSome := by
  obtain ⟨h1, h2, _⟩ := ofInterest_spec s p i hi
  exact (hpart i (hlen ▸ h1)).mpr h2

theorem inv_check_interest (cfg : Config) (env : Env) (s : State) (p : Nat) (hInv : Inv cfg s) :
    Inv cfg (check_interest cfg env s p).1 := by
  by_cases hI : (alookup s.interested p).isSome = true
  · rw [check_interest_eq_busy cfg env s p (Or.inl hI)]
    exact hInv
  by_cases hR : (alookup s.requesting p).isSome = true
  · rw [check_interest_eq_busy cfg env s p (Or.inr hR)]
    exact hInv
  have hI' : alookup s.interested p = none := by
    cases h : alookup s.interested p
    · rfl
    · rw [h] at hI
      simp at hI
  have hR' : alookup s.requesting p = none := by
    cases h : alookup s.requesting p
    · rfl
    · rw [h] at hR
      simp at hR
  cases hf : s.setAside.find? (fun e => (ofInterest s p).contains e.piece) with
  | some e =>
    rw [check_interest_eq_resume cfg env s p e hI' hR' hf]
    apply inv_show_interest
    have he : e ∈ s.setAside := List.mem_of_find?_eq_some hf
    have hperm : (assignedOf (aupdate s.interested p ⟨e.piece, e.got, e.hash, s.tick⟩)
        s.requesting (s.setAside.erase e)).Perm
        (assignedOf s.interested s.requesting s.setAside) :=
      (assignedOf_install_perm _ _ _ p _ hI').trans
        (assignedOf_erase_sa_perm s.interested s.requesting s.setAside e he).symm
    refine hInv.withAssign _ _ _ ?_ ?_ ?_ ?_ ?_
    · exact keys_nodup_aupdate _ hInv.int_keys_nodup
    · exact hInv.req_keys_nodup
    · intro q
      by_cases hq : q = p
      · subst hq
        exact Or.inr hR'
      · rw [alookup_aupdate_ne _ _ _ _ hq]
        exact hInv.int_req_disj q
    · exact hperm.nodup_iff.mpr hInv.assigned_nodup
    · intro i hi
      exact hInv.assigned_needed i (hperm.mem_iff.mp hi)
  | none =>
    cases hr : (rarest s).find?
        (fun r => (ofInterest s p).contains r.2.2 && !((dontConsider s).contains r.2.2)) with
    | some r =>
      rw [check_interest_eq_rarest cfg env s p r hI' hR' hf hr]
      apply inv_show_interest
      have hp := List.find?_some hr
      rw [Bool.and_eq_true] at hp
      have hmem : r.2.2 ∈ ofInterest s p := by simpa using hp.1
      have hdont : r.2.2 ∉ dontConsider s := by simpa using hp.2
      have hsa : ∀ x ∈ s.setAside, x.piece ∉ ofInterest s p := by
        intro x hx
        have := List.find?_eq_none.mp hf x hx
        simpa using this
      have hnotin : r.2.2 ∉ assignedOf s.interested s.requesting s.setAside := by
        intro hin
        unfold assignedOf at hin
        rcases List.mem_append.mp hin with hin | hin
        · exact hdont hin
        · rcases List.mem_map.mp hin with ⟨x, hx, hxe⟩
          exact hsa x hx (hxe ▸ hmem)
      have hperm : (assignedOf (aupdate s.interested p ⟨r.2.2, 0, [], s.tick⟩)
          s.requesting s.setAside).Perm
          (r.2.2 :: assignedOf s.interested s.requesting s.setAside) :=
        assignedOf_install_perm _ _ _ p _ hI'
      refine hInv.withAssign _ _ _ ?_ ?_ ?_ ?_ ?_
      · exact keys_nodup_aupdate _ hInv.int_keys_nodup
      · exact hInv.req_keys_nodup
      · intro q
        by_cases hq : q = p
        · subst hq
          exact Or.inr hR'
        · rw [alookup_aupdate_ne _ _ _ _ hq]
          exact hInv.int_req_disj q
      · exact hperm.nodup_iff.mpr (List.nodup_cons.mpr ⟨hnotin, hInv.assigned_nodup⟩)
      · intro i hi
        rcases List.mem_cons.mp (hperm.mem_iff.mp hi) with hi | hi
        · subst hi
          exact ofInterest_isSome cfg s p _ hInv.have_len hInv.partition hmem
        · exact hInv.assigned_needed i hi
    | none =>
      rw [check_interest_eq_fall cfg env s p hI' hR' (Or.inr ⟨hf, hr⟩)]
      exact hInv

/-! ### The initial state -/

theorem alookup_map_const {α : Type} (xs : List Nat) (c : Nat → α) (k : Nat) :
    alookup (xs.map (fun i => (i, c i))) k = if k ∈ xs then some (c k) else none := by
  induction xs with
  | nil => simp [alookup]
  | cons x t ih =>
    by_cases h : x = k
    · subst h
      simp [alookup]
    · simp [alookup, h, ih, Ne.symm h]

theorem inv_init (cfg : Config) (h0 : List Bool) (hlen : h0.length = cfg.numPieces) :
    Inv cfg (initState h0) := by
  have hkeys : ((initState h0).needed.map Prod.fst) = zeroBits h0 := by
    show ((zeroBits h0).map (fun i => (i, ((0 : Int), ([] : List Nat))))).map Prod.fst = _
    rw [List.map_map]
    exact List.map_id'' (fun x => rfl) _
  constructor
  · exact List.nodup_nil
  · exact List.nodup_nil
  · intro q hq
    simp [initState] at hq
  · exact List.nodup_nil
  · exact List.nodup_nil
  · intro q
    exact Or.inl rfl
  · rw [hkeys]
    exact zeroBits_nodup h0
  · rw [hkeys]
    intro i hi
    rw [mem_zeroBits] at hi
    omega
  · exact hlen
  · intro i hi
    show (alookup ((zeroBits h0).map (fun i => (i, ((0 : Int), ([] : List Nat))))) i).isSome ↔
      h0.getD i false = false
    rw [alookup_map_const]
    by_cases h : i ∈ zeroBits h0
    · rw [if_pos h]
      rw [mem_zeroBits] at h
      constructor
      · intro _
        simpa using h.2
      · intro _
        rfl
    · rw [if_neg h]
      rw [mem_zeroBits] at h
      push_neg at h
      simp only [Option.isSome_none]
      constructor
      · intro hc
        simp at hc
      · intro hc
        exact absurd hc (h (by omega))
  · exact List.nodup_nil
  · intro i hi
    simp [assignedPieces, assignedOf, initState] at hi
  · intro i occ prs hl
    rw [show (initState h0).needed =
        (zeroBits h0).map (fun i => (i, ((0 : Int), ([] : List Nat)))) from rfl,
      alookup_map_const] at hl
    by_cases h : i ∈ zeroBits h0
    · rw [if_pos h] at hl
      injection hl with hl2
      injection hl2 with h1 h2
      rw [← h1, ← h2]
      simp
    · rw [if_neg h] at hl
      cases hl
  · intro i occ prs hl q hq
    simp [initState] at hq

/-! ### `_remove_peer` -/

theorem remove_peer_eq_int (s : State) (p : Nat) (hI : (alookup s.interested p).isSome = true) :
    remove_peer s p =
      { s with peers := s.peers.erase p,
               needed := removePeerNeeded p s.needed (setBits (bfOf s p)),
               bitfields := aerase s.bitfields p,
               interested := aerase s.interested p } := by
  unfold remove_peer
  simp [hI, bfOf]

theorem remove_peer_eq_req (s : State) (p : Nat) (a : ActiveReq)
    (hI : alookup s.interested p = none) (hR : alookup s.requesting p = some a) :
    remove_peer s p =
      { s with peers := s.peers.erase p,
               needed := removePeerNeeded p s.needed (setBits (bfOf s p)),
               bitfields := aerase s.bitfields p,
               setAside := s.setAside ++ [(⟨a.piece, a.got, a.hash⟩ : Part)],
               requesting := aerase s.requesting p } := by
  unfold remove_peer
  simp [hI, hR, bfOf]

theorem remove_peer_eq_none (s : State) (p : Nat)
    (hI : alookup s.interested p = none) (hR : alookup s.requesting p = none) :
    remove_peer s p =
      { s with peers := s.peers.erase p,
               needed := removePeerNeeded p s.needed (setBits (bfOf s p)),
               bitfields := aerase s.bitfields p } := by
  unfold remove_peer
  simp [hI, hR, bfOf]

theorem isSome_removePeerNeeded (p : Nat) (pieces : List Nat) (hnd : pieces.Nodup)
    (nd : List (Nat × Int × List Nat)) (i : Nat) :
    (alookup (removePeerNeeded p nd pieces) i).isSome = (alookup nd i).isSome := by
  by_cases h : i ∈ pieces
  · rw [alookup_removePeerNeeded_mem p pieces nd i hnd h]
    cases alookup nd i <;> simp
  · rw [alookup_removePeerNeeded_not_mem p pieces nd i h]

/-- The core of `_remove_peer` (peers, `_needed` counts, bitfields) keeps
the invariant; the peer identifier may be arbitrary. -/
theorem inv_remove_core (cfg : Config) (s : State) (p : Nat) (hInv : Inv cfg s) :
    Inv cfg { s with peers := s.peers.erase p,
                     needed := removePeerNeeded p s.needed (setBits (bfOf s p)),
                     bitfields := aerase s.bitfields p } := by
  have hndp : (setBits (bfOf s p)).Nodup := setBits_nodup _
  have hlook : ∀ i : Nat,
      (alookup (removePeerNeeded p s.needed (setBits (bfOf s p))) i).isSome =
        (alookup s.needed i).isSome :=
    fun i => isSome_removePeerNeeded p _ hndp s.needed i
  constructor
  · exact (List.erase_sublist p s.peers).nodup hInv.peers_nodup
  · exact ((aerase_sublist s.bitfields p).map Prod.fst).nodup hInv.bf_keys_nodup
  · intro q hq
    have hqp : q ≠ p := by
      intro h
      subst h
      have hnone := alookup_aerase_self (l := s.bitfields) (k := q) hInv.bf_keys_nodup
      rw [alookup_eq_none_iff] at hnone
      exact hnone hq
    have hqb : q ∈ s.bitfields.map Prod.fst :=
      ((aerase_sublist s.bitfields p).map Prod.fst).mem hq
    exact (List.mem_erase_of_ne hqp).mpr (hInv.bf_keys_sub q hqb)
  · exact hInv.int_keys_nodup
  · exact hInv.req_keys_nodup
  · exact hInv.int_req_disj
  · rw [keys_removePeerNeeded]
    exact hInv.needed_keys_nodup
  · rw [keys_removePeerNeeded]
    exact hInv.needed_range
  · exact hInv.have_len
  · intro i hi
    show (alookup (removePeerNeeded p s.needed (setBits (bfOf s p))) i).isSome ↔ _
    rw [hlook i]
    exact hInv.partition i hi
  · exact hInv.assigned_nodup
  · intro i hi
    show (alookup (removePeerNeeded p s.needed (setBits (bfOf s p))) i).isSome = true
    rw [hlook i]
    exact hInv.assigned_needed i hi
  · intro i occ prs hl
    have hl' : alookup (removePeerNeeded p s.needed (setBits (bfOf s p))) i =
        some (occ, prs) := hl
    by_cases h : i ∈ setBits (bfOf s p)
    · rw [alookup_removePeerNeeded_mem p _ s.needed i hndp h] at hl'
      rcases Option.map_eq_some'.mp hl' with ⟨v, hv, hveq⟩
      obtain ⟨occ0, prs0⟩ := v
      have hocc := hInv.rar i occ0 prs0 hv
      unfold removeVal at hveq
      by_cases hc : p ∈ prs0
      · rw [if_pos (by simpa using hc)] at hveq
        injection hveq with h1 h2
        have hlen0 : prs0.length = (prs0.erase p).length + 1 := by
          rw [List.length_erase_of_mem hc]
          have : 0 < prs0.length := List.length_pos.mpr (List.ne_nil_of_mem hc)
          omega
        rw [← h1, ← h2, hocc, hlen0]
        push_cast
        ring
      · rw [if_neg (by simpa using hc)] at hveq
        injection hveq with h1 h2
        rw [← h1, ← h2]
        exact hocc
    · rw [alookup_removePeerNeeded_not_mem p _ s.needed i h] at hl'
      exact hInv.rar i occ prs hl'
  · intro i occ prs hl q hq hbit
    have hq2 := (List.Nodup.mem_erase_iff hInv.peers_nodup).mp hq
    have hqp : q ≠ p := hq2.1
    have hqpeers : q ∈ s.peers := hq2.2
    have hl' : alookup (removePeerNeeded p s.needed (setBits (bfOf s p))) i =
        some (occ, prs) := hl
    have hbit1 : ((alookup (aerase s.bitfields p) q).getD []).getD i false = true := hbit
    rw [alookup_aerase_ne _ _ _ hqp] at hbit1
    have hbit2 : (bfOf s q).getD i false = true := hbit1
    by_cases h : i ∈ setBits (bfOf s p)
    · rw [alookup_removePeerNeeded_mem p _ s.needed i hndp h] at hl'
      rcases Option.map_eq_some'.mp hl' with ⟨v, hv, hveq⟩
      obtain ⟨occ0, prs0⟩ := v
      have hmem := hInv.avail i occ0 prs0 hv q hqpeers hbit2
      unfold removeVal at hveq
      by_cases hc : p ∈ prs0
      · rw [if_pos (by simpa using hc)] at hveq
        injection hveq with h1 h2
        rw [← h2]
        exact (List.mem_erase_of_ne hqp).mpr hmem
      · rw [if_neg (by simpa using hc)] at hveq
        injection hveq with h1 h2
        rw [← h2]
        exact hmem
    · rw [alookup_removePeerNeeded_not_mem p _ s.needed i h] at hl'
      exact hInv.avail i occ prs hl' q hqpeers hbit2

theorem inv_remove_peer (cfg : Config) (s : State) (p : Nat) (hInv : Inv cfg s) :
    Inv cfg (remove_peer s p) := by
  have hcore := inv_remove_core cfg s p hInv
  cases hI : alookup s.interested p with
  | some r =>
    rw [remove_peer_eq_int s p (by simp [hI])]
    refine hcore.withAssign _ _ _ ?_ ?_ ?_ ?_ ?_
    · exact ((aerase_sublist _ _).map _).nodup hInv.int_keys_nodup
    · exact hInv.req_keys_nodup
    · intro q
      by_cases hq : q = p
      · subst hq
        exact Or.inl (alookup_aerase_self hInv.int_keys_nodup)
      · rw [alookup_aerase_ne _ _ _ hq]
        exact hInv.int_req_disj q
    · exact (assignedOf_erase_int _ _ _ p).nodup hInv.assigned_nodup
    · intro i hi
      show (alookup (removePeerNeeded p s.needed (setBits (bfOf s p))) i).isSome = true
      rw [isSome_removePeerNeeded p _ (setBits_nodup _) s.needed i]
      exact hInv.assigned_needed i ((assignedOf_erase_int _ _ _ p).mem hi)
  | none =>
    cases hR : alookup s.requesting p with
    | some a =>
      rw [remove_peer_eq_req s p a hI hR]
      refine hcore.withAssign _ _ _ ?_ ?_ ?_ ?_ ?_
      · exact hInv.int_keys_nodup
      · exact ((aerase_sublist _ _).map _).nodup hInv.req_keys_nodup
      · intro q
        by_cases hq : q = p
        · subst hq
          exact Or.inr (alookup_aerase_self hInv.req_keys_nodup)
        · rw [alookup_aerase_ne _ _ _ hq]
          exact hInv.int_req_disj q
      · exact (assignedOf_spill _ _ _ p a hR).nodup_iff.mpr hInv.assigned_nodup
      · intro i hi
        show (alookup (removePeerNeeded p s.needed (setBits (bfOf s p))) i).isSome = true
        rw [isSome_removePeerNeeded p _ (setBits_nodup _) s.needed i]
        exact hInv.assigned_needed i ((assignedOf_spill _ _ _ p a hR).mem_iff.mp hi)
    | none =>
      rw [remove_peer_eq_none s p hI hR]
      exact hcore

theorem inv_peer_unconnected (cfg : Config) (s : State) (p : Nat) (hInv : Inv cfg s) :
    Inv cfg (peer_unconnected s p).1 :=
  inv_remove_peer cfg s p hInv

/-! ### `peer_choked` and `peer_unchoked` -/

theorem peer_choked_eq_int (s : State) (p : Nat)
    (hI : (alookup s.interested p).isSome = true) :
    peer_choked s p = ({ s with interested := aerase s.interested p }, []) := by
  unfold peer_choked
  simp [hI]

theorem peer_choked_eq_req (s : State) (p : Nat) (a : ActiveReq)
    (hI : alookup s.interested p = none) (hR : alookup s.requesting p = some a) :
    peer_choked s p =
      ({ s with setAside := s.setAside ++ [(⟨a.piece, a.got, a.hash⟩ : Part)],
                requesting := aerase s.requesting p }, []) := by
  unfold peer_choked
  simp [hI, hR]

theorem peer_choked_eq_none (s : State) (p : Nat)
    (hI : alookup s.interested p = none) (hR : alookup s.requesting p = none) :
    peer_choked s p = (s, []) := by
  unfold peer_choked
  simp [hI, hR]

theorem inv_peer_choked (cfg : Config) (s : State) (p : Nat) (hInv : Inv cfg s) :
    Inv cfg (peer_choked s p).1 := by
  cases hI : alookup s.interested p with
  | some r =>
    rw [peer_choked_eq_int s p (by simp [hI])]
    refine hInv.withAssign _ _ _ ?_ ?_ ?_ ?_ ?_
    · exact ((aerase_sublist _ _).map _).nodup hInv.int_keys_nodup
    · exact hInv.req_keys_nodup
    · intro q
      by_cases hq : q = p
      · subst hq
        exact Or.inl (alookup_aerase_self hInv.int_keys_nodup)
      · rw [alookup_aerase_ne _ _ _ hq]
        exact hInv.int_req_disj q
    · exact (assignedOf_erase_int _ _ _ p).nodup hInv.assigned_nodup
    · intro i hi
      exact hInv.assigned_needed i ((assignedOf_erase_int _ _ _ p).mem hi)
  | none =>
    cases hR : alookup s.requesting p with
    | some a =>
      rw [peer_choked_eq_req s p a hI hR]
      refine hInv.withAssign _ _ _ ?_ ?_ ?_ ?_ ?_
      · exact hInv.int_keys_nodup
      · exact ((aerase_sublist _ _).map _).nodup hInv.req_keys_nodup
      · intro q
        by_cases hq : q = p
        · subst hq
          exact Or.inr (alookup_aerase_self hInv.req_keys_nodup)
        · rw [alookup_aerase_ne _ _ _ hq]
          exact hInv.int_req_disj q
      · exact (assignedOf_spill _ _ _ p a hR).nodup_iff.mpr hInv.assigned_nodup
      · intro i hi
        exact hInv.assigned_needed i ((assignedOf_spill _ _ _ p a hR).mem_iff.mp hi)
    | none =>
      rw [peer_choked_eq_none s p hI hR]
      exact hInv

theorem inv_peer_unchoked (cfg : Config) (s : State) (p : Nat) (hInv : Inv cfg s) :
    Inv cfg (peer_unchoked cfg s p).1 := by
  unfold peer_unchoked
  by_cases hI : (alookup s.interested p).isSome = true
  · rw [if_pos hI]
    exact inv_request cfg s p hInv
  · rw [if_neg hI]
    exact hInv

/-! ### `peer_has` -/

theorem getD_set_self (l : List Bool) (i : Nat) (b : Bool) (h : i < l.length) :
    (l.set i b).getD i false = b := by
  induction l generalizing i with
  | nil => simp at h
  | cons x xs ih =>
    cases i with
    | zero => rfl
    | succ j =>
      simp only [List.set_cons_succ, List.getD_cons_succ]
      exact ih j (by simpa using h)

theorem getD_set_ne (l : List Bool) (i j : Nat) (b : Bool) (h : j ≠ i) :
    (l.set i b).getD j false = l.getD j false := by
  induction l generalizing i j with
  | nil => simp
  | cons x xs ih =>
    cases i with
    | zero =>
      cases j with
      | zero => exact absurd rfl h
      | succ j' => rfl
    | succ i' =>
      cases j with
      | zero => rfl
      | succ j' =>
        simp only [List.set_cons_succ, List.getD_cons_succ]
        exact ih i' j' (by omega)

theorem getD_true_lt (l : List Bool) (i : Nat) (h : l.getD i false = true) : i < l.length := by
  by_contra hc
  push_neg at hc
  rw [List.getD_eq_default _ _ hc] at h
  cases h

theorem isSome_addPeer1 (p : Nat) (nd : List (Nat × Int × List Nat)) (j i : Nat) :
    (alookup (addPeer1 p nd j) i).isSome = (alookup nd i).isSome := by
  by_cases h : i = j
  · subst h
    rw [alookup_addPeer1_self]
    cases alookup nd i <;> simp
  · rw [alookup_addPeer1_ne p nd j i h]

theorem isSome_addPeerNeeded (p : Nat) (pieces : List Nat) (hnd : pieces.Nodup)
    (nd : List (Nat × Int × List Nat)) (i : Nat) :
    (alookup (addPeerNeeded p nd pieces) i).isSome = (alookup nd i).isSome := by
  by_cases h : i ∈ pieces
  · rw [alookup_addPeerNeeded_mem p pieces nd i hnd h]
    cases alookup nd i <;> simp
  · rw [alookup_addPeerNeeded_not_mem p pieces nd i h]

theorem peer_has_eq_err (cfg : Config) (env : Env) (s : State) (p idx : Nat)
    (hidx : ¬ idx < cfg.numPieces) :
    peer_has cfg env s p idx = (s, [], some PyErr.indexError) := by
  unfold peer_has
  rw [if_neg hidx]

theorem peer_has_eq_in_range (cfg : Config) (env : Env) (s : State) (p idx : Nat)
    (hidx : idx < cfg.numPieces) (hn : (alookup s.needed idx).isSome = true) :
    peer_has cfg env s p idx =
      ((check_interest cfg env
          { s with bitfields := aupdate s.bitfields p ((bfOf s p).set idx true),
                   needed := addPeer1 p s.needed idx } p).1,
       (check_interest cfg env
          { s with bitfields := aupdate s.bitfields p ((bfOf s p).set idx true),
                   needed := addPeer1 p s.needed idx } p).2, none) := by
  unfold peer_has
  rw [if_pos hidx]
  cases hl : alookup s.needed idx with
  | none =>
    rw [hl] at hn
    simp at hn
  | some v =>
    obtain ⟨occ, prs⟩ := v
    by_cases hc : p ∈ prs
    · simp [hl, hc, addPeer1]
    · simp [hl, hc, addPeer1]

theorem peer_has_eq_not_needed (cfg : Config) (env : Env) (s : State) (p idx : Nat)
    (hidx : idx < cfg.numPieces) (hn : alookup s.needed idx = none) :
    peer_has cfg env s p idx =
      ({ s with bitfields := aupdate s.bitfields p ((bfOf s p).set idx true) }, [], none) := by
  unfold peer_has
  rw [if_pos hidx]
  simp [hn]

/-- Setting a bit of a peer's bitfield and adding the peer to that piece's
`_needed` entry (idempotently) keeps the invariant. -/
theorem inv_addPeer1_bit (cfg : Config) (s : State) (p idx : Nat) (hInv : Inv cfg s)
    (hp : p ∈ s.peers) :
    Inv cfg { s with bitfields := aupdate s.bitfields p ((bfOf s p).set idx true),
                     needed := addPeer1 p s.needed idx } := by
  constructor
  · exact hInv.peers_nodup
  · exact keys_nodup_aupdate _ hInv.bf_keys_nodup
  · intro q hq
    rcases keys_aupdate_sub s.bitfields p _ q hq with h | h
    · exact hInv.bf_keys_sub q h
    · subst h
      exact hp
  · exact hInv.int_keys_nodup
  · exact hInv.req_keys_nodup
  · exact hInv.int_req_disj
  · show ((addPeer1 p s.needed idx).map Prod.fst).Nodup
    rw [keys_addPeer1]
    exact hInv.needed_keys_nodup
  · show ∀ i ∈ (addPeer1 p s.needed idx).map Prod.fst, i < cfg.numPieces
    rw [keys_addPeer1]
    exact hInv.needed_range
  · exact hInv.have_len
  · intro i hi
    show (alookup (addPeer1 p s.needed idx) i).isSome ↔ _
    rw [isSome_addPeer1]
    exact hInv.partition i hi
  · exact hInv.assigned_nodup
  · intro i hi
    show (alookup (addPeer1 p s.needed idx) i).isSome = true
    rw [isSome_addPeer1]
    exact hInv.assigned_needed i hi
  · intro i occ prs hl
    have hl' : alookup (addPeer1 p s.needed idx) i = some (occ, prs) := hl
    by_cases h : i = idx
    · subst h
      rw [alookup_addPeer1_self] at hl'
      rcases Option.map_eq_some'.mp hl' with ⟨v, hv, hveq⟩
      obtain ⟨occ0, prs0⟩ := v
      have hocc := hInv.rar i occ0 prs0 hv
      unfold addVal at hveq
      by_cases hc : p ∈ prs0
      · rw [if_pos (by simpa using hc)] at hveq
        injection hveq with h1 h2
        rw [← h1, ← h2]
        exact hocc
      · rw [if_neg (by simpa using hc)] at hveq
        injection hveq with h1 h2
        rw [← h1, ← h2, hocc, List.length_append]
        push_cast
        simp
    · rw [alookup_addPeer1_ne p s.needed idx i h] at hl'
      exact hInv.rar i occ prs hl'
  · intro i occ prs hl q hq hbit
    have hl' : alookup (addPeer1 p s.needed idx) i = some (occ, prs) := hl
    by_cases h : i = idx
    · subst h
      rw [alookup_addPeer1_self] at hl'
      rcases Option.map_eq_some'.mp hl' with ⟨v, hv, hveq⟩
      obtain ⟨occ0, prs0⟩ := v
      unfold addVal at hveq
      by_cases hq2 : q = p
      · subst hq2
        by_cases hc : q ∈ prs0
        · rw [if_pos (by simpa using hc)] at hveq
          injection hveq with h1 h2
          rw [← h2]
          exact hc
        · rw [if_neg (by simpa using hc)] at hveq
          injection hveq with h1 h2
          rw [← h2]
          exact List.mem_append_right _ (List.mem_singleton_self q)
      · have hbit2 : (bfOf s q).getD i false = true := by
          have hb : ((alookup (aupdate s.bitfields p ((bfOf s p).set i true)) q).getD
              []).getD i false = true := hbit
          rw [alookup_aupdate_ne _ _ _ _ hq2] at hb
          exact hb
        have hmem := hInv.avail i occ0 prs0 hv q hq hbit2
        by_cases hc : p ∈ prs0
        · rw [if_pos (by simpa using hc)] at hveq
          injection hveq with h1 h2
          rw [← h2]
          exact hmem
        · rw [if_neg (by simpa using hc)] at hveq
          injection hveq with h1 h2
          rw [← h2]
          exact List.mem_append_left _ hmem
    · rw [alookup_addPeer1_ne p s.needed idx i h] at hl'
      by_cases hq2 : q = p
      · subst hq2
        have hbit2 : (bfOf s q).getD i false = true := by
          have hb : (((bfOf s q).set idx true)).getD i false = true := by
            have hb0 : ((alookup (aupdate s.bitfields q ((bfOf s q).set idx true)) q).getD
                []).getD i false = true := hbit
            rw [alookup_aupdate_self] at hb0
            exact hb0
          rw [getD_set_ne _ _ _ _ h] at hb
          exact hb
        exact hInv.avail i occ prs hl' q hq hbit2
      · have hbit2 : (bfOf s q).getD i false = true := by
          have hb : ((alookup (aupdate s.bitfields p ((bfOf s p).set idx true)) q).getD
              []).getD i false = true := hbit
          rw [alookup_aupdate_ne _ _ _ _ hq2] at hb
          exact hb
        exact hInv.avail i occ prs hl' q hq hbit2

theorem inv_peer_has (cfg : Config) (env : Env) (s : State) (p idx : Nat) (hInv : Inv cfg s)
    (hp : p ∈ s.peers) : Inv cfg (peer_has cfg env s p idx).1 := by
  by_cases hidx : idx < cfg.numPieces
  · cases hn : alookup s.needed idx with
    | some v =>
      rw [peer_has_eq_in_range cfg env s p idx hidx (by simp [hn])]
      exact inv_check_interest cfg env _ p (inv_addPeer1_bit cfg s p idx hInv hp)
    | none =>
      rw [peer_has_eq_not_needed cfg env s p idx hidx hn]
      have h2 := inv_addPeer1_bit cfg s p idx hInv hp
      have he : addPeer1 p s.needed idx = s.needed := by
        unfold addPeer1
        rw [hn]
      rw [he] at h2
      exact h2
  · rw [peer_has_eq_err cfg env s p idx hidx]
    exact hInv

/-! ### `peer_bitfield` -/

theorem peer_bitfield_eq_invalid (cfg : Config) (env : Env) (s : State) (p : Nat)
    (bf : List Bool)
    (hbad : bf.length < cfg.numPieces ∨
      (bf.length > cfg.numPieces ∧ (bf.drop cfg.numPieces).any id = true)) :
    peer_bitfield cfg env s p bf =
      (remove_peer s p, [Effect.dropConnection p, Effect.connect 1]) := by
  unfold peer_bitfield
  rw [if_pos hbad]

theorem peer_bitfield_eq_valid (cfg : Config) (env : Env) (s : State) (p : Nat)
    (bf : List Bool)
    (hok : ¬ (bf.length < cfg.numPieces ∨
      (bf.length > cfg.numPieces ∧ (bf.drop cfg.numPieces).any id = true))) :
    peer_bitfield cfg env s p bf =
      check_interest cfg env
        { s with bitfields := aupdate s.bitfields p (bf.take cfg.numPieces),
                 needed := addPeerNeeded p s.needed (setBits (bf.take cfg.numPieces)) } p := by
  unfold peer_bitfield
  rw [if_neg hok]

/-- Replacing a peer's bitfield and (idempotently) adding the peer to every
advertised needed piece keeps the invariant. -/
theorem inv_bitfield_valid (cfg : Config) (s : State) (p : Nat) (bft : List Bool)
    (hInv : Inv cfg s) (hp : p ∈ s.peers) :
    Inv cfg { s with bitfields := aupdate s.bitfields p bft,
                     needed := addPeerNeeded p s.needed (setBits bft) } := by
  have hndp : (setBits bft).Nodup := setBits_nodup _
  constructor
  · exact hInv.peers_nodup
  · exact keys_nodup_aupdate _ hInv.bf_keys_nodup
  · intro q hq
    rcases keys_aupdate_sub s.bitfields p _ q hq with h | h
    · exact hInv.bf_keys_sub q h
    · subst h
      exact hp
  · exact hInv.int_keys_nodup
  · exact hInv.req_keys_nodup
  · exact hInv.int_req_disj
  · show ((addPeerNeeded p s.needed (setBits bft)).map Prod.fst).Nodup
    rw [keys_addPeerNeeded]
    exact hInv.needed_keys_nodup
  · show ∀ i ∈ (addPeerNeeded p s.needed (setBits bft)).map Prod.fst, i < cfg.numPieces
    rw [keys_addPeerNeeded]
    exact hInv.needed_range
  · exact hInv.have_len
  · intro i hi
    show (alookup (addPeerNeeded p s.needed (setBits bft)) i).isSome ↔ _
    rw [isSome_addPeerNeeded p _ hndp]
    exact hInv.partition i hi
  · exact hInv.assigned_nodup
  · intro i hi
    show (alookup (addPeerNeeded p s.needed (setBits bft)) i).isSome = true
    rw [isSome_addPeerNeeded p _ hndp]
    exact hInv.assigned_needed i hi
  · intro i occ prs hl
    have hl' : alookup (addPeerNeeded p s.needed (setBits bft)) i = some (occ, prs) := hl
    by_cases h : i ∈ setBits bft
    · rw [alookup_addPeerNeeded_mem p _ s.needed i hndp h] at hl'
      rcases Option.map_eq_some'.mp hl' with ⟨v, hv, hveq⟩
      obtain ⟨occ0, prs0⟩ := v
      have hocc := hInv.rar i occ0 prs0 hv
      unfold addVal at hveq
      by_cases hc : p ∈ prs0
      · rw [if_pos (by simpa using hc)] at hveq
        injection hveq with h1 h2
        rw [← h1, ← h2]
        exact hocc
      · rw [if_neg (by simpa using hc)] at hveq
        injection hveq with h1 h2
        rw [← h1, ← h2, hocc, List.length_append]
        push_cast
        simp
    · rw [alookup_addPeerNeeded_not_mem p _ s.needed i h] at hl'
      exact hInv.rar i occ prs hl'
  · intro i occ prs hl q hq hbit
    have hl' : alookup (addPeerNeeded p s.needed (setBits bft)) i = some (occ, prs) := hl
    by_cases hq2 : q = p
    · subst hq2
      have hbit2 : bft.getD i false = true := by
        have hb : ((alookup (aupdate s.bitfields q bft) q).getD []).getD i false = true := hbit
        rw [alookup_aupdate_self] at hb
        exact hb
      have hmem : i ∈ setBits bft :=
        mem_setBits.mpr ⟨getD_true_lt bft i hbit2, hbit2⟩
      rw [alookup_addPeerNeeded_mem q _ s.needed i hndp hmem] at hl'
      rcases Option.map_eq_some'.mp hl' with ⟨v, hv, hveq⟩
      obtain ⟨occ0, prs0⟩ := v
      unfold addVal at hveq
      by_cases hc : q ∈ prs0
      · rw [if_pos (by simpa using hc)] at hveq
        injection hveq with h1 h2
        rw [← h2]
        exact hc
      · rw [if_neg (by simpa using hc)] at hveq
        injection hveq with h1 h2
        rw [← h2]
        exact List.mem_append_right _ (List.mem_singleton_self q)
    · have hbit2 : (bfOf s q).getD i false = true := by
        have hb : ((alookup (aupdate s.bitfields p bft) q).getD []).getD i false = true := hbit
        rw [alookup_aupdate_ne _ _ _ _ hq2] at hb
        exact hb
      by_cases h : i ∈ setBits bft
      · rw [alookup_addPeerNeeded_mem p _ s.needed i hndp h] at hl'
        rcases Option.map_eq_some'.mp hl' with ⟨v, hv, hveq⟩
        obtain ⟨occ0, prs0⟩ := v
        have hmem := hInv.avail i occ0 prs0 hv q hq hbit2
        unfold addVal at hveq
        by_cases hc : p ∈ prs0
        · rw [if_pos (by simpa using hc)] at hveq
          injection hveq with h1 h2
          rw [← h2]
          exact hmem
        · rw [if_neg (by simpa using hc)] at hveq
          injection hveq with h1 h2
          rw [← h2]
          exact List.mem_append_left _ hmem
      · rw [alookup_addPeerNeeded_not_mem p _ s.needed i h] at hl'
        exact hInv.avail i occ prs hl' q hq hbit2

theorem inv_peer_bitfield (cfg : Config) (env : Env) (s : State) (p : Nat) (bf : List Bool)
    (hInv : Inv cfg s) (hp : p ∈ s.peers) : Inv cfg (peer_bitfield cfg env s p bf).1 := by
  by_cases hbad : bf.length < cfg.numPieces ∨
      (bf.length > cfg.numPieces ∧ (bf.drop cfg.numPieces).any id = true)
  · rw [peer_bitfield_eq_invalid cfg env s p bf hbad]
    exact inv_remove_peer cfg s p hInv
  · rw [peer_bitfield_eq_valid cfg env s p bf hbad]
    exact inv_check_interest cfg env _ p (inv_bitfield_valid cfg s p _ hInv hp)

/-! ### `peer_sent_block` -/

theorem aerase_aupdate {α : Type} (l : List (Nat × α)) (k : Nat) (v : α) :
    aerase (aupdate l k v) k = aerase l k := by
  induction l with
  | nil => simp [aupdate, aerase]
  | cons e t ih =>
    obtain ⟨k', v'⟩ := e
    by_cases h : k' = k
    · subst h
      simp [aupdate, aerase]
    · simp [aupdate, aerase, h, ih]

theorem assignedOf_erase_req_perm (intr : List (Nat × Resv)) (reqs : List (Nat × ActiveReq))
    (sa : List Part) (p : Nat) (a : ActiveReq) (hR : alookup reqs p = some a) :
    (assignedOf intr reqs sa).Perm (a.piece :: assignedOf intr (aerase reqs p) sa) := by
  unfold assignedOf
  have hmap : (reqs.map (fun e => e.2.piece)).Perm
      (a.piece :: (aerase reqs p).map (fun e => e.2.piece)) :=
    (perm_aerase hR).map _
  have step1 : (intr.map (fun e => e.2.piece) ++ reqs.map (fun e => e.2.piece)).Perm
      (intr.map (fun e => e.2.piece) ++
        (a.piece :: (aerase reqs p).map (fun e => e.2.piece))) :=
    List.Perm.append_left _ hmap
  have step2 : (intr.map (fun e => e.2.piece) ++
      (a.piece :: (aerase reqs p).map (fun e => e.2.piece))).Perm
      (a.piece :: (intr.map (fun e => e.2.piece) ++
        (aerase reqs p).map (fun e => e.2.piece))) := List.perm_middle
  exact (step1.trans step2).append_right (sa.map (fun e => e.piece))

theorem psb_eq_silent (cfg : Config) (env : Env) (s : State) (p idx begin_ : Nat)
    (buf : List Nat) (hR : alookup s.requesting p = none) :
    peer_sent_block cfg env s p idx begin_ buf = (s, []) := by
  unfold peer_sent_block
  rw [hR]

theorem psb_eq_mismatch (cfg : Config) (env : Env) (s : State) (p idx begin_ : Nat)
    (buf : List Nat) (a : ActiveReq) (hR : alookup s.requesting p = some a)
    (hmm : ¬ (a.piece = idx ∧ begin_ = a.got)) :
    peer_sent_block cfg env s p idx begin_ buf = (s, []) := by
  unfold peer_sent_block
  rw [hR]
  simp only [if_neg hmm]

theorem psb_eq_continue (cfg : Config) (env : Env) (s : State) (p idx begin_ : Nat)
    (buf : List Nat) (a : ActiveReq) (hR : alookup s.requesting p = some a)
    (hpi : a.piece = idx) (hbg : begin_ = a.got)
    (hlt : ((a.got + buf.length : Nat) : Int) < length_of_piece cfg idx) :
    peer_sent_block cfg env s p idx begin_ buf =
      ((request cfg { s with requesting := (aupdate s.requesting p
          ⟨a.piece, a.got + buf.length, a.hash ++ buf, s.tick, 0⟩) } p).1,
       [Effect.writeBlock idx begin_ buf] ++
        (request cfg { s with requesting := (aupdate s.requesting p
          ⟨a.piece, a.got + buf.length, a.hash ++ buf, s.tick, 0⟩) } p).2) := by
  subst hpi
  subst hbg
  have hlt2 : (a.got : Int) + (buf.length : Int) < length_of_piece cfg a.piece := by
    push_cast at hlt
    exact hlt
  unfold peer_sent_block
  rw [hR]
  simp [hlt2]

theorem psb_eq_good_more (cfg : Config) (env : Env) (s : State) (p idx begin_ : Nat)
    (buf : List Nat) (a : ActiveReq) (hR : alookup s.requesting p = some a)
    (hpi : a.piece = idx) (hbg : begin_ = a.got)
    (hge : ¬ ((a.got + buf.length : Nat) : Int) < length_of_piece cfg idx)
    (hdig : cfg.sha1digest (a.hash ++ buf) = cfg.pieceHash idx)
    (hne : aerase s.needed idx ≠ []) :
    peer_sent_block cfg env s p idx begin_ buf =
      ((check_interest cfg env
          { s with needed := aerase s.needed idx, haveBf := s.haveBf.set idx true,
                   requesting := aerase s.requesting p } p).1,
       [Effect.writeBlock idx begin_ buf] ++
        (check_interest cfg env
          { s with needed := aerase s.needed idx, haveBf := s.haveBf.set idx true,
                   requesting := aerase s.requesting p } p).2) := by
  subst hpi
  subst hbg
  have hge2 : ¬ ((a.got : Int) + (buf.length : Int) < length_of_piece cfg a.piece) := by
    push_cast at hge
    exact hge
  unfold peer_sent_block
  rw [hR]
  simp [hge2, hdig, aerase_aupdate, hne]

theorem psb_eq_good_done (cfg : Config) (env : Env) (s : State) (p idx begin_ : Nat)
    (buf : List Nat) (a : ActiveReq) (hR : alookup s.requesting p = some a)
    (hpi : a.piece = idx) (hbg : begin_ = a.got)
    (hge : ¬ ((a.got + buf.length : Nat) : Int) < length_of_piece cfg idx)
    (hdig : cfg.sha1digest (a.hash ++ buf) = cfg.pieceHash idx)
    (hemp : aerase s.needed idx = []) :
    peer_sent_block cfg env s p idx begin_ buf =
      ({ s with needed := aerase s.needed idx, haveBf := s.haveBf.set idx true,
                requesting := aerase s.requesting p },
       [Effect.writeBlock idx begin_ buf, Effect.complete]) := by
  subst hpi
  subst hbg
  have hge2 : ¬ ((a.got : Int) + (buf.length : Int) < length_of_piece cfg a.piece) := by
    push_cast at hge
    exact hge
  unfold peer_sent_block
  rw [hR]
  simp [hge2, hdig, aerase_aupdate, hemp]

theorem psb_eq_bad_more (cfg : Config) (env : Env) (s : State) (p idx begin_ : Nat)
    (buf : List Nat) (a : ActiveReq) (hR : alookup s.requesting p = some a)
    (hpi : a.piece = idx) (hbg : begin_ = a.got)
    (hge : ¬ ((a.got + buf.length : Nat) : Int) < length_of_piece cfg idx)
    (hdig : ¬ cfg.sha1digest (a.hash ++ buf) = cfg.pieceHash idx)
    (hne : s.needed ≠ []) :
    peer_sent_block cfg env s p idx begin_ buf =
      ((check_interest cfg env { s with requesting := aerase s.requesting p } p).1,
       [Effect.writeBlock idx begin_ buf] ++
        (check_interest cfg env { s with requesting := aerase s.requesting p } p).2) := by
  subst hpi
  subst hbg
  have hge2 : ¬ ((a.got : Int) + (buf.length : Int) < length_of_piece cfg a.piece) := by
    push_cast at hge
    exact hge
  unfold peer_sent_block
  rw [hR]
  simp [hge2, hdig, aerase_aupdate, hne]

theorem psb_eq_bad_done (cfg : Config) (env : Env) (s : State) (p idx begin_ : Nat)
    (buf : List Nat) (a : ActiveReq) (hR : alookup s.requesting p = some a)
    (hpi : a.piece = idx) (hbg : begin_ = a.got)
    (hge : ¬ ((a.got + buf.length : Nat) : Int) < length_of_piece cfg idx)
    (hdig : ¬ cfg.sha1digest (a.hash ++ buf) = cfg.pieceHash idx)
    (hemp : s.needed = []) :
    peer_sent_block cfg env s p idx begin_ buf =
      ({ s with requesting := aerase s.requesting p },
       [Effect.writeBlock idx begin_ buf, Effect.complete]) := by
  subst hpi
  subst hbg
  have hge2 : ¬ ((a.got : Int) + (buf.length : Int) < length_of_piece cfg a.piece) := by
    push_cast at hge
    exact hge
  unfold peer_sent_block
  rw [hR]
  simp [hge2, hdig, aerase_aupdate, hemp]

/-- Erasing a peer's `_requesting` entry (with optional removal of its piece
from `_needed` and setting `have`) keeps the invariant: the pure-erase case. -/
theorem inv_erase_requesting (cfg : Config) (s : State) (p : Nat) (hInv : Inv cfg s) :
    Inv cfg { s with requesting := aerase s.requesting p } := by
  refine hInv.withAssign _ _ _ ?_ ?_ ?_ ?_ ?_
  · exact hInv.int_keys_nodup
  · exact ((aerase_sublist _ _).map _).nodup hInv.req_keys_nodup
  · intro q
    by_cases hq : q = p
    · subst hq
      exact Or.inr (alookup_aerase_self hInv.req_keys_nodup)
    · rw [alookup_aerase_ne _ _ _ hq]
      exact hInv.int_req_disj q
  · exact (assignedOf_erase_req _ _ _ p).nodup hInv.assigned_nodup
  · intro i hi
    exact hInv.assigned_needed i ((assignedOf_erase_req _ _ _ p).mem hi)

/-- The hash-verified completion state of `peer_sent_block` keeps the
invariant. -/
theorem inv_psb_good (cfg : Config) (s : State) (p : Nat) (a : ActiveReq)
    (hInv : Inv cfg s) (hR : alookup s.requesting p = some a) :
    Inv cfg { s with needed := aerase s.needed a.piece,
                     haveBf := s.haveBf.set a.piece true,
                     requesting := aerase s.requesting p } := by
  have hsome : (alookup s.needed a.piece).isSome := by
    refine hInv.assigned_needed a.piece ?_
    show a.piece ∈ assignedOf s.interested s.requesting s.setAside
    unfold assignedOf
    exact List.mem_append_left _
      (List.mem_append_right _ (List.mem_map.mpr ⟨(p, a), alookup_mem hR, rfl⟩))
  have hidx : a.piece < cfg.numPieces := by
    refine hInv.needed_range a.piece ?_
    exact (alookup_isSome_iff _ _).mp hsome
  have hperm := assignedOf_erase_req_perm s.interested s.requesting s.setAside p a hR
  have hnd2 : (a.piece :: assignedOf s.interested (aerase s.requesting p) s.setAside).Nodup :=
    hperm.nodup_iff.mp hInv.assigned_nodup
  rw [List.nodup_cons] at hnd2
  constructor
  · exact hInv.peers_nodup
  · exact hInv.bf_keys_nodup
  · exact hInv.bf_keys_sub
  · exact hInv.int_keys_nodup
  · exact ((aerase_sublist _ _).map _).nodup hInv.req_keys_nodup
  · intro q
    by_cases hq : q = p
    · subst hq
      exact Or.inr (alookup_aerase_self hInv.req_keys_nodup)
    · rw [alookup_aerase_ne _ _ _ hq]
      exact hInv.int_req_disj q
  · show ((aerase s.needed a.piece).map Prod.fst).Nodup
    exact ((aerase_sublist _ _).map _).nodup hInv.needed_keys_nodup
  · intro i hi
    exact hInv.needed_range i (((aerase_sublist s.needed a.piece).map Prod.fst).mem hi)
  · show (s.haveBf.set a.piece true).length = cfg.numPieces
    rw [List.length_set]
    exact hInv.have_len
  · intro i hi
    show (alookup (aerase s.needed a.piece) i).isSome ↔
      (s.haveBf.set a.piece true).getD i false = false
    by_cases h : i = a.piece
    · subst h
      rw [alookup_aerase_self hInv.needed_keys_nodup,
        getD_set_self _ _ _ (by rw [hInv.have_len]; exact hidx)]
      simp
    · rw [alookup_aerase_ne _ _ _ h, getD_set_ne _ _ _ _ h]
      exact hInv.partition i hi
  · exact hnd2.2
  · intro i hi
    have hne : i ≠ a.piece := by
      intro h
      subst h
      exact hnd2.1 hi
    show (alookup (aerase s.needed a.piece) i).isSome = true
    rw [alookup_aerase_ne _ _ _ hne]
    exact hInv.assigned_needed i (hperm.mem_iff.mpr (List.mem_cons_of_mem _ hi))
  · intro i occ prs hl
    have hl' : alookup (aerase s.needed a.piece) i = some (occ, prs) := hl
    by_cases h : i = a.piece
    · subst h
      rw [alookup_aerase_self hInv.needed_keys_nodup] at hl'
      cases hl'
    · rw [alookup_aerase_ne _ _ _ h] at hl'
      exact hInv.rar i occ prs hl'
  · intro i occ prs hl q hq hbit
    have hl' : alookup (aerase s.needed a.piece) i = some (occ, prs) := hl
    by_cases h : i = a.piece
    · subst h
      rw [alookup_aerase_self hInv.needed_keys_nodup] at hl'
      cases hl'
    · rw [alookup_aerase_ne _ _ _ h] at hl'
      exact hInv.avail i occ prs hl' q hq hbit

theorem inv_peer_sent_block (cfg : Config) (env : Env) (s : State) (p idx begin_ : Nat)
    (buf : List Nat) (hInv : Inv cfg s) :
    Inv cfg (peer_sent_block cfg env s p idx begin_ buf).1 := by
  cases hR : alookup s.requesting p with
  | none =>
    rw [psb_eq_silent cfg env s p idx begin_ buf hR]
    exact hInv
  | some a =>
    by_cases hmm : a.piece = idx ∧ begin_ = a.got
    · obtain ⟨hpi, hbg⟩ := hmm
      have hInone : alookup s.interested p = none := by
        rcases hInv.int_req_disj p with h | h
        · exact h
        · rw [h] at hR
          cases hR
      by_cases hlt : ((a.got + buf.length : Nat) : Int) < length_of_piece cfg idx
      · rw [psb_eq_continue cfg env s p idx begin_ buf a hR hpi hbg hlt]
        have hInv1 : Inv cfg { s with requesting := (aupdate s.requesting p
            ⟨a.piece, a.got + buf.length, a.hash ++ buf, s.tick, 0⟩) } := by
          refine hInv.withAssign _ _ _ ?_ ?_ ?_ ?_ ?_
          · exact hInv.int_keys_nodup
          · exact keys_nodup_aupdate _ hInv.req_keys_nodup
          · intro q
            by_cases hq : q = p
            · subst hq
              exact Or.inl hInone
            · rw [alookup_aupdate_ne _ _ _ _ hq]
              exact hInv.int_req_disj q
          · rw [assignedOf_update_req_same s.interested s.requesting s.setAside p a
              (⟨a.piece, a.got + buf.length, a.hash ++ buf, s.tick, 0⟩ : ActiveReq) hR rfl]
            exact hInv.assigned_nodup
          · rw [assignedOf_update_req_same s.interested s.requesting s.setAside p a
              (⟨a.piece, a.got + buf.length, a.hash ++ buf, s.tick, 0⟩ : ActiveReq) hR rfl]
            exact hInv.assigned_needed
        exact inv_request cfg _ p hInv1
      · by_cases hdig : cfg.sha1digest (a.hash ++ buf) = cfg.pieceHash idx
        · have hInv2 : Inv cfg
              { s with needed := aerase s.needed idx,
                       haveBf := s.haveBf.set idx true,
                       requesting := aerase s.requesting p } := by
            rw [← hpi]
            exact inv_psb_good cfg s p a hInv hR
          by_cases hne : aerase s.needed idx ≠ []
          · rw [psb_eq_good_more cfg env s p idx begin_ buf a hR hpi hbg hlt hdig hne]
            exact inv_check_interest cfg env _ p hInv2
          · rw [psb_eq_good_done cfg env s p idx begin_ buf a hR hpi hbg hlt hdig
              (by simpa using hne)]
            exact hInv2
        · have hInv2 := inv_erase_requesting cfg s p hInv
          by_cases hne : s.needed ≠ []
          · rw [psb_eq_bad_more cfg env s p idx begin_ buf a hR hpi hbg hlt hdig hne]
            exact inv_check_interest cfg env _ p hInv2
          · rw [psb_eq_bad_done cfg env s p idx begin_ buf a hR hpi hbg hlt hdig
              (by simpa using hne)]
            exact hInv2
    · rw [psb_eq_mismatch cfg env s p idx begin_ buf a hR hmm]
      exact hInv

/-! ### The timer sweeps -/

theorem alookup_append_cons {α : Type} (pre : List (Nat × α)) (k : Nat) (v : α)
    (rest : List (Nat × α)) (h : k ∉ pre.map Prod.fst) :
    alookup (pre ++ (k, v) :: rest) k = some v := by
  induction pre with
  | nil => simp [alookup]
  | cons e t ih =>
    obtain ⟨k', v'⟩ := e
    simp only [List.map_cons, List.mem_cons] at h
    push_neg at h
    show (if k' = k then some v' else alookup (t ++ (k, v) :: rest) k) = some v
    rw [if_neg (fun hh => h.1 hh.symm)]
    exact ih h.2

theorem aupdate_append_cons {α : Type} (pre : List (Nat × α)) (k : Nat) (v w : α)
    (rest : List (Nat × α)) (h : k ∉ pre.map Prod.fst) :
    aupdate (pre ++ (k, v) :: rest) k w = pre ++ (k, w) :: rest := by
  induction pre with
  | nil => simp [aupdate]
  | cons e t ih =>
    obtain ⟨k', v'⟩ := e
    simp only [List.map_cons, List.mem_cons] at h
    push_neg at h
    show (if k' = k then (k, w) :: (t ++ (k, v) :: rest)
        else (k', v') :: aupdate (t ++ (k, v) :: rest) k w) = (k', v') :: (t ++ (k, w) :: rest)
    rw [if_neg (fun hh => h.1 hh.symm), ih h.2]

theorem aerase_append_cons {α : Type} (pre : List (Nat × α)) (k : Nat) (v : α)
    (rest : List (Nat × α)) (h : k ∉ pre.map Prod.fst) :
    aerase (pre ++ (k, v) :: rest) k = pre ++ rest := by
  induction pre with
  | nil => simp [aerase]
  | cons e t ih =>
    obtain ⟨k', v'⟩ := e
    simp only [List.map_cons, List.mem_cons] at h
    push_neg at h
    show (if k' = k then t ++ (k, v) :: rest
        else (k', v') :: aerase (t ++ (k, v) :: rest) k) = (k', v') :: (t ++ rest)
    rw [if_neg (fun hh => h.1 hh.symm), ih h.2]

theorem interest_pass_spec :
    ∀ (snap pre : List (Nat × Resv)) (s : State) (eff : List Effect),
      s.interested = pre ++ snap →
      (∀ q ∈ snap.map Prod.fst, q ∉ pre.map Prod.fst) →
      (snap.map Prod.fst).Nodup →
      snap.foldl interestStep (s, eff) =
        ({ s with interested := pre ++ snap.filterMap (sweepInt s.tick) },
         eff ++ snap.flatMap (sweepIntEff s.tick)) := by
  intro snap
  induction snap with
  | nil =>
    intro pre s eff hpre _ _
    have hpre2 : pre = s.interested := by simpa using hpre.symm
    subst hpre2
    simp only [List.foldl_nil, List.filterMap_nil, List.append_nil, List.flatMap_nil]
  | cons e rest ih =>
    intro pre s eff hpre hfr hnd
    obtain ⟨q, r⟩ := e
    simp only [List.map_cons, List.nodup_cons] at hnd
    rw [List.foldl_cons]
    by_cases hc : r.tick + 4 = s.tick
    · have hstep : interestStep (s, eff) (q, r) =
          ({ s with interested := pre ++ rest },
           eff ++ [Effect.notInterested q, Effect.connect 1]) := by
        unfold interestStep
        rw [if_pos hc]
        rw [show s.interested = pre ++ (q, r) :: rest from hpre]
        rw [aerase_append_cons pre q r rest (hfr q (List.mem_cons_self _ _))]
      rw [hstep]
      rw [ih pre { s with interested := pre ++ rest } _ rfl
        (fun q' hq' => hfr q' (List.mem_cons_of_mem _ hq')) hnd.2]
      simp [sweepInt, sweepIntEff, hc]
    · have hstep : interestStep (s, eff) (q, r) = (s, eff) := by
        unfold interestStep
        rw [if_neg hc]
      rw [hstep]
      rw [ih (pre ++ [(q, r)]) s eff (by rw [hpre]; simp) ?_ hnd.2]
      · simp [sweepInt, sweepIntEff, hc]
      · intro q' hq' hq2
        rw [List.map_append, List.mem_append] at hq2
        rcases hq2 with hq2 | hq2
        · exact hfr q' (List.mem_cons_of_mem _ hq') hq2
        · simp at hq2
          subst hq2
          exact hnd.1 hq'

theorem request_pass_spec (cfg : Config) :
    ∀ (snap pre : List (Nat × ActiveReq)) (s : State) (eff : List Effect),
      s.requesting = pre ++ snap →
      (∀ q ∈ snap.map Prod.fst, q ∉ pre.map Prod.fst) →
      (snap.map Prod.fst).Nodup →
      (∀ q ∈ snap.map Prod.fst, alookup s.interested q = none) →
      snap.foldl (requestStep cfg) (s, eff) =
        ({ s with requesting := pre ++ snap.filterMap (sweepReq s.tick),
                  setAside := s.setAside ++ (snap.filter (sweepGaveUp s.tick)).map
                    (fun e => ⟨e.2.piece, e.2.got, e.2.hash⟩) },
         eff ++ snap.flatMap (sweepReqEff cfg s.tick)) := by
  intro snap
  induction snap with
  | nil =>
    intro pre s eff hpre _ _ _
    have hpre2 : pre = s.requesting := by simpa using hpre.symm
    subst hpre2
    simp only [List.foldl_nil, List.filterMap_nil, List.append_nil, List.flatMap_nil,
      List.filter_nil, List.map_nil]
  | cons e rest ih =>
    intro pre s eff hpre hfr hnd hint
    obtain ⟨q, a⟩ := e
    simp only [List.map_cons, List.nodup_cons] at hnd
    have hqfresh : q ∉ pre.map Prod.fst := hfr q (List.mem_cons_self _ _)
    rw [List.foldl_cons]
    by_cases hc : a.tick + 5 = s.tick
    · by_cases hr : a.retries < MAX_RETRIES
      · have e1 : aupdate s.requesting q
            (⟨a.piece, a.got, a.hash, s.tick, a.retries + 1⟩ : ActiveReq) =
            pre ++ (q, (⟨a.piece, a.got, a.hash, s.tick, a.retries + 1⟩ : ActiveReq)) :: rest := by
          rw [hpre]
          exact aupdate_append_cons pre q a _ rest hqfresh
        have e2 := request_eq_of_requesting cfg
          ({ s with requesting := pre ++
            (q, (⟨a.piece, a.got, a.hash, s.tick, a.retries + 1⟩ : ActiveReq)) :: rest }) q
          (⟨a.piece, a.got, a.hash, s.tick, a.retries + 1⟩ : ActiveReq)
          (hint q (List.mem_cons_self _ _))
          (alookup_append_cons pre q _ rest hqfresh)
        have hstep : requestStep cfg (s, eff) (q, a) =
            ({ s with requesting := pre ++
                (q, (⟨a.piece, a.got, a.hash, s.tick, a.retries + 1⟩ : ActiveReq)) :: rest },
             eff ++ [Effect.request q a.piece a.got
               (bytes_to_request cfg a.piece (a.got : Int))]) := by
          unfold requestStep
          rw [if_pos hc, if_pos hr]
          show ((request cfg { s with requesting := (aupdate s.requesting q
              (⟨a.piece, a.got, a.hash, s.tick, a.retries + 1⟩ : ActiveReq)) } q).1,
            eff ++ (request cfg { s with requesting := (aupdate s.requesting q
              (⟨a.piece, a.got, a.hash, s.tick, a.retries + 1⟩ : ActiveReq)) } q).2) = _
          rw [e1, e2]
        rw [hstep]
        rw [ih (pre ++ [(q, (⟨a.piece, a.got, a.hash, s.tick, a.retries + 1⟩ : ActiveReq))])
          ({ s with requesting := pre ++
            (q, (⟨a.piece, a.got, a.hash, s.tick, a.retries + 1⟩ : ActiveReq)) :: rest })
          (eff ++ [Effect.request q a.piece a.got (bytes_to_request cfg a.piece (a.got : Int))])
          (by simp) ?_ hnd.2 (fun q' hq' => hint q' (List.mem_cons_of_mem _ hq'))]
        · simp [sweepReq, sweepGaveUp, sweepReqEff, hc, hr]
        · intro q' hq' hq2
          rw [List.map_append, List.mem_append] at hq2
          rcases hq2 with hq2 | hq2
          · exact hfr q' (List.mem_cons_of_mem _ hq') hq2
          · simp at hq2
            subst hq2
            exact hnd.1 hq'
      · have hstep : requestStep cfg (s, eff) (q, a) =
            ({ s with setAside := s.setAside ++ [(⟨a.piece, a.got, a.hash⟩ : Part)],
                      requesting := pre ++ rest },
             eff ++ [Effect.notInterested q, Effect.connect 1]) := by
          unfold requestStep
          rw [if_pos hc, if_neg hr]
          rw [show s.requesting = pre ++ (q, a) :: rest from hpre]
          rw [aerase_append_cons pre q a rest hqfresh]
        rw [hstep]
        rw [ih pre
          ({ s with setAside := s.setAside ++ [(⟨a.piece, a.got, a.hash⟩ : Part)],
                    requesting := pre ++ rest })
          (eff ++ [Effect.notInterested q, Effect.connect 1])
          rfl (fun q' hq' => hfr q' (List.mem_cons_of_mem _ hq')) hnd.2
          (fun q' hq' => hint q' (List.mem_cons_of_mem _ hq'))]
        simp [sweepReq, sweepGaveUp, sweepReqEff, hc, hr]
    · have hstep : requestStep cfg (s, eff) (q, a) = (s, eff) := by
        unfold requestStep
        rw [if_neg hc]
      rw [hstep]
      rw [ih (pre ++ [(q, a)]) s eff (by rw [hpre]; simp) ?_ hnd.2
        (fun q' hq' => hint q' (List.mem_cons_of_mem _ hq'))]
      · simp [sweepReq, sweepGaveUp, sweepReqEff, hc]
      · intro q' hq' hq2
        rw [List.map_append, List.mem_append] at hq2
        rcases hq2 with hq2 | hq2
        · exact hfr q' (List.mem_cons_of_mem _ hq') hq2
        · simp at hq2
          subst hq2
          exact hnd.1 hq'

theorem filterMap_sweepInt_sublist (T : Nat) (l : List (Nat × Resv)) :
    List.Sublist (l.filterMap (sweepInt T)) l := by
  induction l with
  | nil => simp
  | cons e t ih =>
    unfold sweepInt
    by_cases hc : e.2.tick + 4 = T
    · simp only [List.filterMap_cons, sweepInt, if_pos hc]
      exact ih.cons e
    · simp only [List.filterMap_cons, sweepInt, if_neg hc]
      exact ih.cons₂ e

theorem keys_filterMap_sweepReq (T : Nat) (l : List (Nat × ActiveReq)) :
    List.Sublist ((l.filterMap (sweepReq T)).map Prod.fst) (l.map Prod.fst) := by
  induction l with
  | nil => simp
  | cons e t ih =>
    simp only [List.filterMap_cons, sweepReq]
    by_cases hc : e.2.tick + 5 = T
    · by_cases hr : e.2.retries < MAX_RETRIES
      · simp only [if_pos hc, if_pos hr]
        simpa using ih.cons₂ e.1
      · simp only [if_pos hc, if_neg hr]
        exact ih.trans (List.sublist_cons_self _ _)
    · simp only [if_neg hc]
      simpa using ih.cons₂ e.1

theorem sweepReq_pieces_perm (T : Nat) (l : List (Nat × ActiveReq)) :
    (((l.filterMap (sweepReq T)).map (fun e => e.2.piece)) ++
      ((l.filter (sweepGaveUp T)).map (fun e => e.2.piece))).Perm
      (l.map (fun e => e.2.piece)) := by
  induction l with
  | nil => simp
  | cons e t ih =>
    simp only [List.filterMap_cons, List.filter_cons, sweepReq, sweepGaveUp]
    by_cases hc : e.2.tick + 5 = T
    · by_cases hr : e.2.retries < MAX_RETRIES
      · simp only [if_pos hc, if_pos hr, decide_eq_true_eq]
        rw [if_neg (by simp [hc, hr])]
        simp only [List.map_cons, List.cons_append]
        exact ih.cons _
      · simp only [if_pos hc, if_neg hr]
        rw [if_pos (by simp [hc, hr])]
        simp only [List.map_cons]
        refine List.Perm.trans ?_ (ih.cons e.2.piece)
        exact List.perm_middle
    · simp only [if_neg hc]
      rw [if_neg (by simp [hc])]
      simp only [List.map_cons, List.cons_append]
      exact ih.cons _

theorem timer_event_spec (cfg : Config) (s : State)
    (hik : (s.interested.map Prod.fst).Nodup)
    (hrk : (s.requesting.map Prod.fst).Nodup)
    (hd : ∀ q ∈ s.requesting.map Prod.fst, alookup s.interested q = none) :
    timer_event cfg s =
      ({ s with tick := s.tick + 1,
                interested := s.interested.filterMap (sweepInt (s.tick + 1)),
                requesting := s.requesting.filterMap (sweepReq (s.tick + 1)),
                setAside := s.setAside ++ (s.requesting.filter (sweepGaveUp (s.tick + 1))).map
                  (fun e => ⟨e.2.piece, e.2.got, e.2.hash⟩) },
       s.interested.flatMap (sweepIntEff (s.tick + 1)) ++
         s.requesting.flatMap (sweepReqEff cfg (s.tick + 1))) := by
  have hint2 : ∀ q ∈ s.requesting.map Prod.fst,
      alookup (s.interested.filterMap (sweepInt (s.tick + 1))) q = none := by
    intro q hq
    have hnone : alookup s.interested q = none := hd q hq
    rw [alookup_eq_none_iff] at hnone ⊢
    intro hmem
    exact hnone (((filterMap_sweepInt_sublist (s.tick + 1) s.interested).map Prod.fst).mem hmem)
  have h1 : List.foldl interestStep ({ s with tick := s.tick + 1 }, ([] : List Effect))
      s.interested =
      ({ s with tick := s.tick + 1,
                interested := s.interested.filterMap (sweepInt (s.tick + 1)) },
       s.interested.flatMap (sweepIntEff (s.tick + 1))) := by
    have hh := interest_pass_spec s.interested [] { s with tick := s.tick + 1 } [] rfl
      (by simp) hik
    simpa using hh
  have h2 : List.foldl (requestStep cfg)
      (({ s with tick := s.tick + 1,
                 interested := s.interested.filterMap (sweepInt (s.tick + 1)) } : State),
       s.interested.flatMap (sweepIntEff (s.tick + 1))) s.requesting =
      ({ s with tick := s.tick + 1,
                interested := s.interested.filterMap (sweepInt (s.tick + 1)),
                requesting := s.requesting.filterMap (sweepReq (s.tick + 1)),
                setAside := s.setAside ++ (s.requesting.filter (sweepGaveUp (s.tick + 1))).map
                  (fun e => ⟨e.2.piece, e.2.got, e.2.hash⟩) },
       s.interested.flatMap (sweepIntEff (s.tick + 1)) ++
         s.requesting.flatMap (sweepReqEff cfg (s.tick + 1))) := by
    have hh := request_pass_spec cfg s.requesting []
      ({ s with tick := s.tick + 1,
                interested := s.interested.filterMap (sweepInt (s.tick + 1)) })
      (s.interested.flatMap (sweepIntEff (s.tick + 1))) rfl (by simp) hrk
      (by
        intro q hq
        exact hint2 q hq)
    simpa using hh
  unfold timer_event
  show List.foldl (requestStep cfg)
      (List.foldl interestStep ({ s with tick := s.tick + 1 }, ([] : List Effect)) s.interested)
      (List.foldl interestStep ({ s with tick := s.tick + 1 }, ([] : List Effect))
        s.interested).1.requesting = _
  rw [h1]
  exact h2

theorem inv_timer (cfg : Config) (s : State) (hInv : Inv cfg s) :
    Inv cfg (timer_event cfg s).1 := by
  have hd : ∀ q ∈ s.requesting.map Prod.fst, alookup s.interested q = none := by
    intro q hq
    rcases hInv.int_req_disj q with h | h
    · exact h
    · rw [alookup_eq_none_iff] at h
      exact absurd hq h
  rw [timer_event_spec cfg s hInv.int_keys_nodup hInv.req_keys_nodup hd]
  have hIsub := filterMap_sweepInt_sublist (s.tick + 1) s.interested
  have hRkeys := keys_filterMap_sweepReq (s.tick + 1) s.requesting
  have hRperm := sweepReq_pieces_perm (s.tick + 1) s.requesting
  have hassign :
      (assignedOf (s.interested.filterMap (sweepInt (s.tick + 1)))
        (s.requesting.filterMap (sweepReq (s.tick + 1)))
        (s.setAside ++ (s.requesting.filter (sweepGaveUp (s.tick + 1))).map
          (fun e => ⟨e.2.piece, e.2.got, e.2.hash⟩))).Perm
      (assignedOf (s.interested.filterMap (sweepInt (s.tick + 1))) s.requesting s.setAside) := by
    unfold assignedOf
    rw [List.map_append, List.map_map]
    have h1 : ((s.requesting.filterMap (sweepReq (s.tick + 1))).map (fun e => e.2.piece) ++
        (s.setAside.map (fun e => e.piece) ++
          (s.requesting.filter (sweepGaveUp (s.tick + 1))).map
            ((fun e => e.piece) ∘ (fun e => (⟨e.2.piece, e.2.got, e.2.hash⟩ : Part))))).Perm
        (s.requesting.map (fun e => e.2.piece) ++ s.setAside.map (fun e => e.piece)) := by
      have h2 : ((s.requesting.filterMap (sweepReq (s.tick + 1))).map (fun e => e.2.piece) ++
          ((s.requesting.filter (sweepGaveUp (s.tick + 1))).map (fun e => e.2.piece) ++
            s.setAside.map (fun e => e.piece))).Perm
          (s.requesting.map (fun e => e.2.piece) ++ s.setAside.map (fun e => e.piece)) := by
        rw [← List.append_assoc]
        exact hRperm.append_right _
      refine List.Perm.trans ?_ h2
      refine List.Perm.append_left _ ?_
      exact List.perm_append_comm.trans (List.Perm.refl _)
    rw [List.append_assoc, List.append_assoc]
    exact List.Perm.append_left _ h1
  have hsubT :
      List.Sublist
        (assignedOf (s.interested.filterMap (sweepInt (s.tick + 1))) s.requesting s.setAside)
        (assignedOf s.interested s.requesting s.setAside) := by
    unfold assignedOf
    exact ((hIsub.map _).append (List.Sublist.refl _)).append (List.Sublist.refl _)
  constructor
  · exact hInv.peers_nodup
  · exact hInv.bf_keys_nodup
  · exact hInv.bf_keys_sub
  · exact (hIsub.map Prod.fst).nodup hInv.int_keys_nodup
  · exact hRkeys.nodup hInv.req_keys_nodup
  · intro q
    rcases hInv.int_req_disj q with h | h
    · refine Or.inl ?_
      rw [alookup_eq_none_iff] at h ⊢
      intro hmem
      exact h ((hIsub.map Prod.fst).mem hmem)
    · refine Or.inr ?_
      rw [alookup_eq_none_iff] at h ⊢
      intro hmem
      exact h (hRkeys.mem hmem)
  · exact hInv.needed_keys_nodup
  · exact hInv.needed_range
  · exact hInv.have_len
  · exact hInv.partition
  · exact hassign.nodup_iff.mpr (hsubT.nodup hInv.assigned_nodup)
  · intro i hi
    exact hInv.assigned_needed i (hsubT.mem (hassign.mem_iff.mp hi))
  · exact hInv.rar
  · exact hInv.avail

/-! ### Peer arrival and the reachability invariant -/

theorem alookup_append {α : Type} (l1 l2 : List (Nat × α)) (k : Nat) :
    alookup (l1 ++ l2) k = ((alookup l1 k).or (alookup l2 k)) := by
  induction l1 with
  | nil => simp [alookup]
  | cons e t ih =>
    obtain ⟨q, v⟩ := e
    by_cases h : q = k
    · simp [alookup, h]
    · simp [alookup, h, ih]

theorem getD_replicate_false (n i : Nat) :
    (List.replicate n false).getD i false = false := by
  rcases Nat.lt_or_ge i n with h | h
  · simp [List.getD, List.getElem?_replicate, h]
  · simp [List.getD, List.getElem?_eq_none_iff, List.length_replicate, h]

theorem inv_arrive (cfg : Config) (s : State) (addrs : List Nat) (hInv : Inv cfg s)
    (hnd : addrs.Nodup) (hfresh : ∀ p ∈ addrs, p ∉ s.peers) :
    Inv cfg (handle_addrs cfg s addrs) := by
  have hbfresh : ∀ p ∈ addrs, p ∉ s.bitfields.map Prod.fst := by
    intro p hp hmem
    exact hfresh p hp (hInv.bf_keys_sub p hmem)
  rw [handle_addrs_spec cfg addrs s hnd hbfresh]
  have hlkB : ∀ q : Nat,
      alookup (s.bitfields ++ addrs.map fun p => (p, List.replicate cfg.numPieces false)) q =
        ((alookup s.bitfields q).or
          (if q ∈ addrs then some (List.replicate cfg.numPieces false) else none)) := by
    intro q
    rw [alookup_append, alookup_map_const]
  constructor
  · exact List.Nodup.append hInv.peers_nodup hnd (fun a ha hb => hfresh a hb ha)
  · rw [List.map_append, List.map_map]
    have hmap : (addrs.map (Prod.fst ∘ fun p => (p, List.replicate cfg.numPieces false)))
        = addrs := List.map_id'' (fun x => rfl) addrs
    rw [hmap]
    exact List.Nodup.append hInv.bf_keys_nodup hnd
      (fun a ha hb => hfresh a hb (hInv.bf_keys_sub a ha))
  · intro q hq
    rw [List.map_append, List.map_map, List.mem_append] at hq
    rw [List.mem_append]
    rcases hq with hq | hq
    · exact Or.inl (hInv.bf_keys_sub q hq)
    · refine Or.inr ?_
      simpa using hq
  · exact hInv.int_keys_nodup
  · exact hInv.req_keys_nodup
  · exact hInv.int_req_disj
  · exact hInv.needed_keys_nodup
  · exact hInv.needed_range
  · exact hInv.have_len
  · exact hInv.partition
  · exact hInv.assigned_nodup
  · exact hInv.assigned_needed
  · exact hInv.rar
  · intro i occ prs hlk q hq hbit
    have hbit' : ((alookup (s.bitfields ++
        addrs.map fun p => (p, List.replicate cfg.numPieces false)) q).getD []).getD i false
        = true := hbit
    rw [hlkB q] at hbit'
    rw [List.mem_append] at hq
    rcases hq with hq | hq
    · refine hInv.avail i occ prs hlk q hq ?_
      have haddr : q ∉ addrs := fun hmem => hfresh q hmem hq
      rw [if_neg haddr] at hbit'
      simpa [bfOf] using hbit'
    · exfalso
      have hnb : alookup s.bitfields q = none := by
        rw [alookup_eq_none_iff]
        intro hmem
        exact hfresh q hq (hInv.bf_keys_sub q hmem)
      rw [hnb, if_pos hq] at hbit'
      simp [getD_replicate_false] at hbit'

theorem inv_step (cfg : Config) (s t : State) (hInv : Inv cfg s) (hs : Step cfg s t) :
    Inv cfg t := by
  cases hs with
  | arrive s addrs hnd hfresh => exact inv_arrive cfg s addrs hInv hnd hfresh
  | unconnected s p hp => exact inv_peer_unconnected cfg s p hInv
  | bitfield env s p bf hp => exact inv_peer_bitfield cfg env s p bf hInv hp
  | hasPiece env s p idx hp => exact inv_peer_has cfg env s p idx hInv hp
  | choked s p hp => exact inv_peer_choked cfg s p hInv
  | unchoked s p hp => exact inv_peer_unchoked cfg s p hInv
  | sentBlock env s p idx begin_ buf hp =>
      exact inv_peer_sent_block cfg env s p idx begin_ buf hInv
  | timer s => exact inv_timer cfg s hInv

theorem reachable_inv (cfg : Config) (s : State) (hr : Reachable cfg s) : Inv cfg s := by
  induction hr with
  | init h0 hlen => exact inv_init cfg h0 hlen
  | step hr hs ih => exact inv_step cfg _ _ ih hs

/-! ### Frame lemmas: the interest machinery never touches the piece
accounting -/

theorem request_frame (cfg : Config) (s : State) (p : Nat) :
    (request cfg s p).1.peers = s.peers ∧ (request cfg s p).1.bitfields = s.bitfields ∧
    (request cfg s p).1.needed = s.needed ∧ (request cfg s p).1.haveBf = s.haveBf ∧
    (request cfg s p).1.tick = s.tick := by
  cases hI : alookup s.interested p with
  | some r =>
    rw [request_eq_of_interested cfg s p r hI]
    exact ⟨rfl, rfl, rfl, rfl, rfl⟩
  | none =>
    cases hRq : alookup s.requesting p with
    | some a =>
      rw [request_eq_of_requesting cfg s p a hI hRq]
      exact ⟨rfl, rfl, rfl, rfl, rfl⟩
    | none =>
      rw [request_eq_of_none cfg s p hI hRq]
      exact ⟨rfl, rfl, rfl, rfl, rfl⟩

theorem show_interest_frame (cfg : Config) (env : Env) (s : State) (p : Nat) :
    (show_interest cfg env s p).1.peers = s.peers ∧
    (show_interest cfg env s p).1.bitfields = s.bitfields ∧
    (show_interest cfg env s p).1.needed = s.needed ∧
    (show_interest cfg env s p).1.haveBf = s.haveBf ∧
    (show_interest cfg env s p).1.tick = s.tick := by
  cases hc : env.isPeerChoked p with
  | true =>
    rw [show_interest_eq_choked cfg env s p hc]
    exact ⟨rfl, rfl, rfl, rfl, rfl⟩
  | false =>
    rw [show_interest_eq_unchoked cfg env s p hc]
    exact request_frame cfg s p

theorem check_interest_frame (cfg : Config) (env : Env) (s : State) (p : Nat) :
    (check_interest cfg env s p).1.peers = s.peers ∧
    (check_interest cfg env s p).1.bitfields = s.bitfields ∧
    (check_interest cfg env s p).1.needed = s.needed ∧
    (check_interest cfg env s p).1.haveBf = s.haveBf ∧
    (check_interest cfg env s p).1.tick = s.tick := by
  by_cases hbusy : (alookup s.interested p).isSome = true ∨
      (alookup s.requesting p).isSome = true
  · rw [check_interest_eq_busy cfg env s p hbusy]
    exact ⟨rfl, rfl, rfl, rfl, rfl⟩
  · push_neg at hbusy
    have hI : alookup s.interested p = none := by
      cases h : alookup s.interested p with
      | some r => exact absurd (by simp [h]) hbusy.1
      | none => rfl
    have hR : alookup s.requesting p = none := by
      cases h : alookup s.requesting p with
      | some r => exact absurd (by simp [h]) hbusy.2
      | none => rfl
    by_cases hlen : (ofInterest s p).length = 0
    · rw [check_interest_eq_fall cfg env s p hI hR (Or.inl hlen)]
      exact ⟨rfl, rfl, rfl, rfl, rfl⟩
    · cases hf : s.setAside.find? (fun e => (ofInterest s p).contains e.piece) with
      | some e =>
        rw [check_interest_eq_resume cfg env s p e hI hR hf]
        exact show_interest_frame cfg env _ p
      | none =>
        cases hrr : (rarest s).find?
            (fun r => (ofInterest s p).contains r.2.2 &&
              !((dontConsider s).contains r.2.2)) with
        | some r =>
          rw [check_interest_eq_rarest cfg env s p r hI hR hf hrr]
          exact show_interest_frame cfg env _ p
        | none =>
          rw [check_interest_eq_fall cfg env s p hI hR (Or.inr ⟨hf, hrr⟩)]
          exact ⟨rfl, rfl, rfl, rfl, rfl⟩

/-! ### Bit-read helpers -/

theorem mem_ofInterest {s : State} {p : Nat} {j : Nat} (h : j ∈ ofInterest s p) :
    j < s.haveBf.length ∧ s.haveBf.getD j false = false ∧
    (bfOf s p).getD j false = true := by
  unfold ofInterest at h
  rw [mem_setBits] at h
  obtain ⟨hlen, hbit⟩ := h
  rw [List.length_zipWith, List.length_map] at hlen
  have hj1 : j < s.haveBf.length := lt_of_lt_of_le hlen (min_le_left _ _)
  have hj2 : j < (bfOf s p).length := lt_of_lt_of_le hlen (min_le_right _ _)
  rw [List.getD_eq_getElem _ _ (by rw [List.length_zipWith, List.length_map]; exact hlen)]
      at hbit
  rw [List.getElem_zipWith] at hbit
  rw [List.getElem_map] at hbit
  rw [Bool.and_eq_true, Bool.not_eq_true'] at hbit
  refine ⟨hj1, ?_, ?_⟩
  · rw [List.getD_eq_getElem _ _ hj1]
    exact hbit.1
  · rw [List.getD_eq_getElem _ _ hj2]
    exact hbit.2

/-! ### Per-entry reading of the stale-request sweep -/

theorem sweepReq_key (T : Nat) (e x : Nat × ActiveReq) (h : sweepReq T e = some x) :
    x.1 = e.1 := by
  unfold sweepReq at h
  split_ifs at h <;> (rw [Option.some_inj] at h; rw [← h])

theorem alookup_filterMap_sweepReq (T : Nat) :
    ∀ (l : List (Nat × ActiveReq)), (l.map Prod.fst).Nodup →
      ∀ (p : Nat) (a : ActiveReq), (p, a) ∈ l →
      alookup (l.filterMap (sweepReq T)) p = (sweepReq T (p, a)).map Prod.snd := by
  intro l
  induction l with
  | nil =>
    intro _ p a hmem
    cases hmem
  | cons e t ih =>
    intro hnd p a hmem
    rw [List.map_cons, List.nodup_cons] at hnd
    rw [List.filterMap_cons]
    rcases List.mem_cons.mp hmem with he | ht
    · cases hsw : sweepReq T (p, a) with
      | some x =>
        rw [← he, hsw]
        have hx := sweepReq_key T (p, a) x hsw
        obtain ⟨x1, x2⟩ := x
        simp only at hx
        subst hx
        simp [alookup]
      | none =>
        rw [← he, hsw]
        show alookup (t.filterMap (sweepReq T)) p = none
        rw [alookup_eq_none_iff]
        intro hmem2
        rw [← he] at hnd
        exact hnd.1 ((keys_filterMap_sweepReq T t).mem hmem2)
    · have hkey : p ∈ t.map Prod.fst := List.mem_map.mpr ⟨(p, a), ht, rfl⟩
      have hne : e.1 ≠ p := fun h => hnd.1 (h ▸ hkey)
      cases hsw : sweepReq T e with
      | some x =>
        have hx := sweepReq_key T e x hsw
        obtain ⟨x1, x2⟩ := x
        simp only at hx
        subst hx
        show alookup ((e.1, x2) :: t.filterMap (sweepReq T)) p = _
        rw [alookup, if_neg hne]
        exact ih hnd.2 p a ht
      | none =>
        show alookup (t.filterMap (sweepReq T)) p = _
        exact ih hnd.2 p a ht

/-! ### Counting the replacement connections a timer sweep opens -/

theorem count_connect_intEff (T : Nat) (l : List (Nat × Resv)) :
    (l.flatMap (sweepIntEff T)).count (Effect.connect 1) =
      l.countP (fun e => decide (e.2.tick + 4 = T)) := by
  induction l with
  | nil => rfl
  | cons e t ih =>
    rw [List.flatMap_cons, List.count_append, ih, List.countP_cons]
    unfold sweepIntEff
    by_cases h : e.2.tick + 4 = T
    · rw [if_pos h]
      simp [List.count_cons, h]
      omega
    · rw [if_neg h]
      simp [h]

theorem count_connect_reqEff (cfg : Config) (T : Nat) (l : List (Nat × ActiveReq)) :
    (l.flatMap (sweepReqEff cfg T)).count (Effect.connect 1) =
      l.countP (sweepGaveUp T) := by
  induction l with
  | nil => rfl
  | cons e t ih =>
    rw [List.flatMap_cons, List.count_append, ih, List.countP_cons]
    unfold sweepReqEff sweepGaveUp
    by_cases h : e.2.tick + 5 = T
    · by_cases hretr : e.2.retries < MAX_RETRIES
      · rw [if_pos h, if_pos hretr]
        simp [List.count_cons, h, hretr]
      · rw [if_pos h, if_neg hretr]
        simp [List.count_cons, h, hretr]
        omega
    · rw [if_neg h]
      simp [h]

/-! ### The claims -/

/-- C10: on a freshly constructed, uninitialized manager, `name()` fails
with an unguarded `AttributeError` (reading the not-yet-created
`_metainfo`), while `info_hash()` and `percent()` raise the manager's own
`TorrentMgrError` from their lifecycle-state guard. -/
theorem claim_C10 :
    mgr_name mkTorrentMgr = Except.error PyErr.attributeError ∧
    mgr_info_hash mkTorrentMgr = Except.error PyErr.torrentMgrError ∧
    mgr_percent mkTorrentMgr = Except.error PyErr.torrentMgrError :=
  ⟨rfl, rfl, rfl⟩

/-- C3 (amended): `peer_has` with an out-of-range index raises `IndexError`
before touching any state: the handler surfaces the error to its caller,
sends no command (in particular it neither drops the connection nor opens a
replacement), and leaves the state unchanged. -/
theorem claim_C3 (cfg : Config) (env : Env) (s : State) (p idx : Nat)
    (h : ¬ idx < cfg.numPieces) :
    peer_has cfg env s p idx = (s, [], some PyErr.indexError) := by
  unfold peer_has
  rw [if_neg h]

theorem claim_C3_witness :
    ¬ (5 < cfgW.numPieces) ∧
    peer_has cfgW envQuiet sW2 7 5 = (sW2, [], some PyErr.indexError) :=
  ⟨by decide, claim_C3 cfgW envQuiet sW2 7 5 (by decide)⟩

/-- C3 counterexample: called on a two-piece torrent with index 5, the
handler surfaces `IndexError`, emits no `dropConnection`/`connect` command
(its effect list is empty), and the offending peer 7 is still connected in
the unchanged state — there is no local recovery. -/
theorem claim_C3_cex :
    (peer_has cfgW envQuiet sW2 7 5).2.2 = some PyErr.indexError ∧
    (peer_has cfgW envQuiet sW2 7 5).1 = sW2 ∧
    (peer_has cfgW envQuiet sW2 7 5).2.1 = [] ∧
    7 ∈ (peer_has cfgW envQuiet sW2 7 5).1.peers :=
  ⟨rfl, rfl, rfl, by decide⟩

/-- C6: `_bytes_to_request` asks for a full 16 KiB block unless fewer than
`BLOCK_SIZE` bytes of the piece remain past the offset, in which case it
asks for exactly the remainder; the final piece's length is
`total_length − (num_pieces−1)·piece_length` and every other piece has
length `piece_length`. -/
theorem claim_C6 (cfg : Config) (index : Nat) (off : Int)
    (hlo : 0 ≤ off) (hhi : off < length_of_piece cfg index) :
    (BLOCK_SIZE ≤ length_of_piece cfg index - off →
      bytes_to_request cfg index off = BLOCK_SIZE) ∧
    (length_of_piece cfg index - off < BLOCK_SIZE →
      bytes_to_request cfg index off = length_of_piece cfg index - off) ∧
    ((index : Int) = (cfg.numPieces : Int) - 1 →
      length_of_piece cfg index =
        cfg.totalLength - ((cfg.numPieces : Int) - 1) * cfg.pieceLength) ∧
    ((index : Int) ≠ (cfg.numPieces : Int) - 1 →
      length_of_piece cfg index = cfg.pieceLength) := by
  refine ⟨?_, ?_, ?_, ?_⟩
  · intro hrem
    unfold bytes_to_request in_last_block
    unfold length_of_piece at hrem
    rw [if_neg ?_]
    by_cases hl : is_last_piece cfg index = true
    · rw [hl] at hrem ⊢
      simp only [if_pos rfl] at hrem ⊢
      simp only [decide_eq_true_eq]
      omega
    · rw [Bool.not_eq_true] at hl
      rw [hl] at hrem ⊢
      simp only [Bool.false_eq_true, if_neg Bool.false_ne_true] at hrem ⊢
      simp only [decide_eq_true_eq]
      omega
  · intro hrem
    unfold bytes_to_request in_last_block
    unfold length_of_piece at hrem ⊢
    rw [if_pos ?_]
    by_cases hl : is_last_piece cfg index = true
    · rw [hl] at hrem ⊢
      simp only [if_pos rfl] at hrem ⊢
      simp only [decide_eq_true_eq]
      omega
    · rw [Bool.not_eq_true] at hl
      rw [hl] at hrem ⊢
      simp only [Bool.false_eq_true, if_neg Bool.false_ne_true] at hrem ⊢
      simp only [decide_eq_true_eq]
      omega
  · intro hlast
    unfold length_of_piece length_of_last_piece is_last_piece
    rw [if_pos (by simpa using hlast)]
  · intro hlast
    unfold length_of_piece is_last_piece
    rw [if_neg (by simpa using hlast)]

theorem claim_C6_witness :
    ((0 : Int) ≤ 0 ∧ (0 : Int) < length_of_piece cfgW 1) ∧
    bytes_to_request cfgW 1 0 = BLOCK_SIZE ∧
    length_of_piece cfgW 1 =
      cfgW.totalLength - ((cfgW.numPieces : Int) - 1) * cfgW.pieceLength :=
  ⟨⟨by decide, by decide⟩,
   (claim_C6 cfgW 1 0 (by decide) (by decide)).1 (by decide),
   (claim_C6 cfgW 1 0 (by decide) (by decide)).2.2.1 (by decide)⟩

/-- C7: a block delivered by a requesting peer with the wrong piece index
or a misaligned offset is discarded: the handler returns the state
unchanged (the peer's `_requesting` entry, rolling hash and
`bytes_received` included) and sends no command, in particular no
`write_block`. -/
theorem claim_C7 (cfg : Config) (env : Env) (s : State) (p idx begin_ : Nat)
    (buf : List Nat) (a : ActiveReq) (hR : alookup s.requesting p = some a)
    (hmm : ¬ (a.piece = idx ∧ begin_ = a.got)) :
    (peer_sent_block cfg env s p idx begin_ buf).1 = s ∧
    (peer_sent_block cfg env s p idx begin_ buf).2 = [] ∧
    alookup (peer_sent_block cfg env s p idx begin_ buf).1.requesting p = some a := by
  rw [psb_eq_mismatch cfg env s p idx begin_ buf a hR hmm]
  exact ⟨rfl, rfl, hR⟩

theorem claim_C7_witness :
    alookup sC7.requesting 9 = some ⟨0, 16384, [5], 2, 0⟩ ∧
    ¬ ((⟨0, 16384, [5], 2, 0⟩ : ActiveReq).piece = 0 ∧
        32768 = (⟨0, 16384, [5], 2, 0⟩ : ActiveReq).got) ∧
    (peer_sent_block cfgW envQuiet sC7 9 0 32768 [7, 7]).1 = sC7 ∧
    (peer_sent_block cfgW envQuiet sC7 9 0 32768 [7, 7]).2 = [] :=
  ⟨rfl, by decide,
   (claim_C7 cfgW envQuiet sC7 9 0 32768 [7, 7] ⟨0, 16384, [5], 2, 0⟩ rfl (by decide)).1,
   (claim_C7 cfgW envQuiet sC7 9 0 32768 [7, 7] ⟨0, 16384, [5], 2, 0⟩ rfl (by decide)).2.1⟩

/-- C2: in every state reachable from a freshly initialized coordinator by
any sequence of event handlers, the piece indices reserved in
`_interested`, in flight in `_requesting`, and suspended in `_partial`
are pairwise distinct: at most one fetcher is assigned to any piece. -/
theorem claim_C2 (cfg : Config) (s : State) (hr : Reachable cfg s) :
    (assignedPieces s).Nodup :=
  (reachable_inv cfg s hr).assigned_nodup

theorem claim_C2_witness :
    Reachable cfgW sW0 ∧ (assignedPieces sW0).Nodup :=
  ⟨Reachable.init [false, false] rfl,
   claim_C2 cfgW sW0 (Reachable.init [false, false] rfl)⟩

/-- C1: in every reachable state the key set of `_needed` and the set bits
of `_have` are disjoint and together cover `{0, …, num_pieces−1}`; and when
`peer_sent_block` completes a piece whose hash verifies, that same handler
removes the index from `_needed` and sets its `_have` bit. -/
theorem claim_C1 (cfg : Config) (s : State) (hr : Reachable cfg s) :
    (∀ i : Nat, ¬ (i ∈ s.needed.map Prod.fst ∧ i ∈ setBits s.haveBf)) ∧
    (∀ i : Nat, i < cfg.numPieces ↔
      (i ∈ s.needed.map Prod.fst ∨ i ∈ setBits s.haveBf)) ∧
    (∀ (env : Env) (p : Nat) (buf : List Nat) (a : ActiveReq),
      alookup s.requesting p = some a →
      ¬ ((a.got + buf.length : Nat) : Int) < length_of_piece cfg a.piece →
      cfg.sha1digest (a.hash ++ buf) = cfg.pieceHash a.piece →
      a.piece ∉ (peer_sent_block cfg env s p a.piece a.got buf).1.needed.map Prod.fst ∧
      (peer_sent_block cfg env s p a.piece a.got buf).1.haveBf.getD a.piece false
        = true) := by
  have hInv := reachable_inv cfg s hr
  refine ⟨?_, ?_, ?_⟩
  · rintro i ⟨h1, h2⟩
    rw [mem_setBits] at h2
    have hlt : i < cfg.numPieces := hInv.needed_range i h1
    have hsome : (alookup s.needed i).isSome := (alookup_isSome_iff _ _).mpr h1
    have hbit := (hInv.partition i hlt).mp hsome
    rw [hbit] at h2
    exact Bool.false_ne_true h2.2
  · intro i
    constructor
    · intro hlt
      by_cases hs : (alookup s.needed i).isSome
      · exact Or.inl ((alookup_isSome_iff _ _).mp hs)
      · refine Or.inr (mem_setBits.mpr ⟨by rw [hInv.have_len]; exact hlt, ?_⟩)
        rcases hbv : s.haveBf.getD i false with _ | _
        · exact absurd ((hInv.partition i hlt).mpr hbv) hs
        · rfl
    · intro h
      rcases h with h | h
      · exact hInv.needed_range i h
      · rw [mem_setBits, hInv.have_len] at h
        exact h.1
  · intro env p buf a hR hge hdig
    have hmemR : (p, a) ∈ s.requesting := alookup_mem hR
    have hassigned : a.piece ∈ assignedPieces s := by
      unfold assignedPieces assignedOf
      refine List.mem_append.mpr (Or.inl (List.mem_append.mpr (Or.inr ?_)))
      exact List.mem_map.mpr ⟨(p, a), hmemR, rfl⟩
    have hsome := hInv.assigned_needed a.piece hassigned
    have hlt : a.piece < cfg.numPieces :=
      hInv.needed_range a.piece ((alookup_isSome_iff _ _).mp hsome)
    have hltH : a.piece < s.haveBf.length := by
      rw [hInv.have_len]
      exact hlt
    by_cases hemp : aerase s.needed a.piece = []
    · rw [psb_eq_good_done cfg env s p a.piece a.got buf a hR rfl rfl hge hdig hemp]
      constructor
      · show a.piece ∉ (aerase s.needed a.piece).map Prod.fst
        rw [hemp]
        simp
      · show (s.haveBf.set a.piece true).getD a.piece false = true
        exact getD_set_self _ _ _ hltH
    · rw [psb_eq_good_more cfg env s p a.piece a.got buf a hR rfl rfl hge hdig hemp]
      have hfr := check_interest_frame cfg env
        { s with needed := aerase s.needed a.piece, haveBf := s.haveBf.set a.piece true,
                 requesting := aerase s.requesting p } p
      constructor
      · rw [hfr.2.2.1]
        show a.piece ∉ (aerase s.needed a.piece).map Prod.fst
        rw [← alookup_eq_none_iff]
        exact alookup_aerase_self hInv.needed_keys_nodup
      · rw [hfr.2.2.2.1]
        show (s.haveBf.set a.piece true).getD a.piece false = true
        exact getD_set_self _ _ _ hltH

theorem claim_C1_witness :
    Reachable cfgW sW0 ∧
    (∀ i : Nat, ¬ (i ∈ sW0.needed.map Prod.fst ∧ i ∈ setBits sW0.haveBf)) ∧
    (∀ i : Nat, i < cfgW.numPieces ↔
      (i ∈ sW0.needed.map Prod.fst ∨ i ∈ setBits sW0.haveBf)) :=
  ⟨Reachable.init [false, false] rfl,
   (claim_C1 cfgW sW0 (Reachable.init [false, false] rfl)).1,
   (claim_C1 cfgW sW0 (Reachable.init [false, false] rfl)).2.1⟩

/-- C5: `_check_interest` prefers resuming a partial piece: with the peer
otherwise idle, the first `_partial` entry whose piece the peer advertises
is removed from `_partial` and installed as
`interested[peer] = (piece, saved offset, saved rolling hash, tick)`; if
the peer is already unchoked the reservation is promoted at once and the
request it sends asks for offset `bytes_received` of the saved entry (with
`_bytes_to_request` computed at that offset), the rolling-hash state of the
new reservation being exactly the saved one. -/
theorem claim_C5 (cfg : Config) (env : Env) (s : State) (p : Nat) (e : Part)
    (hI : alookup s.interested p = none) (hR : alookup s.requesting p = none)
    (hf : s.setAside.find? (fun e => (ofInterest s p).contains e.piece) = some e) :
    (check_interest cfg env s p).1.setAside = s.setAside.erase e ∧
    (env.isPeerChoked p = true →
      alookup (check_interest cfg env s p).1.interested p =
        some ⟨e.piece, e.got, e.hash, s.tick⟩) ∧
    (env.isPeerChoked p = false →
      alookup (check_interest cfg env s p).1.requesting p =
        some ⟨e.piece, e.got, e.hash, s.tick, 0⟩ ∧
      Effect.request p e.piece e.got (bytes_to_request cfg e.piece (e.got : Int)) ∈
        (check_interest cfg env s p).2) := by
  rw [check_interest_eq_resume cfg env s p e hI hR hf]
  have hup : alookup (aupdate s.interested p ⟨e.piece, e.got, e.hash, s.tick⟩) p =
      some ⟨e.piece, e.got, e.hash, s.tick⟩ := alookup_aupdate_self _ _ _
  cases hc : env.isPeerChoked p with
  | true =>
    rw [show_interest_eq_choked cfg env _ p hc]
    refine ⟨rfl, fun _ => hup, fun hcf => ?_⟩
    simp at hcf
  | false =>
    rw [show_interest_eq_unchoked cfg env _ p hc]
    rw [request_eq_of_interested cfg _ p ⟨e.piece, e.got, e.hash, s.tick⟩ hup]
    refine ⟨rfl, fun hct => ?_, fun _ => ⟨?_, ?_⟩⟩
    · simp at hct
    · show alookup (aupdate s.requesting p ⟨e.piece, e.got, e.hash, s.tick, 0⟩) p = _
      exact alookup_aupdate_self _ _ _
    · refine List.mem_append.mpr (Or.inr ?_)
      exact List.mem_singleton.mpr rfl

theorem claim_C5_witness :
    (check_interest cfgS2 envOpen sS2 9).1.setAside = [] ∧
    alookup (check_interest cfgS2 envOpen sS2 9).1.requesting 9 =
      some ⟨0, 32768, [1, 2], 3, 0⟩ ∧
    Effect.request 9 0 32768 16384 ∈ (check_interest cfgS2 envOpen sS2 9).2 := by
  have h := claim_C5 cfgS2 envOpen sS2 9 ⟨0, 32768, [1, 2]⟩ rfl rfl rfl
  have h2 := h.2.2 rfl
  refine ⟨?_, h2.1, ?_⟩
  · rw [h.1]
    decide
  · have h3 := h2.2
    have hb : bytes_to_request cfgS2 0 ((32768 : Nat) : Int) = 16384 := by decide
    rw [hb] at h3
    exact h3

/-- C9 counterexample: on a one-piece torrent, peer 7 first advertises the
piece and then delivers a second valid bitfield advertising nothing.  The
stored bitfield is replaced, but piece 0's rarity entry still counts peer 7
— had only the second bitfield been received the entry would be `(0, [])`. -/
theorem claim_C9_cex :
    alookup s93.bitfields 7 = some [false] ∧
    alookup s93.needed 0 = some (1, [7]) := by decide

/-- C9 (amended): a valid second bitfield replaces the stored
`bitfields[peer]` with the truncated new bitfield, but merges into the
availability accounting: every `_needed` entry keeps at least its previous
rarity count and all previously recorded peers, so a peer that no longer
advertises a piece is still counted in that piece's rarity. -/
theorem claim_C9 (cfg : Config) (env : Env) (s : State) (p : Nat) (bf : List Bool)
    (hok : ¬ (bf.length < cfg.numPieces ∨
      (bf.length > cfg.numPieces ∧ (bf.drop cfg.numPieces).any id = true))) :
    alookup (peer_bitfield cfg env s p bf).1.bitfields p =
      some (bf.take cfg.numPieces) ∧
    (∀ (i : Nat) (occ occ2 : Int) (prs prs2 : List Nat),
      alookup s.needed i = some (occ, prs) →
      alookup (peer_bitfield cfg env s p bf).1.needed i = some (occ2, prs2) →
      occ ≤ occ2 ∧ ∀ q ∈ prs, q ∈ prs2) := by
  rw [peer_bitfield_eq_valid cfg env s p bf hok]
  have hfr := check_interest_frame cfg env
    { s with bitfields := aupdate s.bitfields p (bf.take cfg.numPieces),
             needed := addPeerNeeded p s.needed (setBits (bf.take cfg.numPieces)) } p
  constructor
  · rw [hfr.2.1]
    show alookup (aupdate s.bitfields p (bf.take cfg.numPieces)) p = _
    exact alookup_aupdate_self _ _ _
  · intro i occ occ2 prs prs2 h1 h2
    rw [hfr.2.2.1] at h2
    have h2' : alookup (addPeerNeeded p s.needed (setBits (bf.take cfg.numPieces))) i
        = some (occ2, prs2) := h2
    by_cases hmem : i ∈ setBits (bf.take cfg.numPieces)
    · rw [alookup_addPeerNeeded_mem p _ s.needed i (setBits_nodup _) hmem, h1] at h2'
      by_cases hc : p ∈ prs
      · simp [addVal, hc, Prod.mk.injEq] at h2'
        exact ⟨le_of_eq h2'.1, fun q hq => h2'.2 ▸ hq⟩
      · simp [addVal, hc, Prod.mk.injEq] at h2'
        refine ⟨by omega, fun q hq => h2'.2 ▸ List.mem_append.mpr (Or.inl hq)⟩
    · rw [alookup_addPeerNeeded_not_mem p _ s.needed i hmem, h1] at h2'
      rw [Option.some_inj, Prod.mk.injEq] at h2'
      exact ⟨le_of_eq h2'.1, fun q hq => h2'.2 ▸ hq⟩

theorem claim_C9_witness :
    ¬ (([false] : List Bool).length < cfg1.numPieces ∨
      (([false] : List Bool).length > cfg1.numPieces ∧
        (([false] : List Bool).drop cfg1.numPieces).any id = true)) ∧
    alookup (peer_bitfield cfg1 envQuiet s92 7 [false]).1.bitfields 7 =
      some (([false] : List Bool).take cfg1.numPieces) ∧
    ((1 : Int) ≤ 1 ∧ ∀ q ∈ ([7] : List Nat), q ∈ ([7] : List Nat)) := by
  have h := claim_C9 cfg1 envQuiet s92 7 [false] (by decide)
  exact ⟨by decide, h.1, h.2 0 1 1 [7] [7] (by decide) (by decide)⟩

/-! ### Reachability of the witness runs -/

theorem reach_sW5 : Reachable cfgW sW5 :=
  Reachable.step
    (Reachable.step
      (Reachable.step
        (Reachable.step
          (Reachable.step (Reachable.init [false, false] rfl)
            (Step.arrive sW0 [7] (by decide) (by decide)))
          (Step.bitfield envQuiet sW1 7 [true, true] (by decide)))
        (Step.arrive sW2 [8] (by decide) (by decide)))
      (Step.bitfield envQuiet sW3 8 [true, false] (by decide)))
    (Step.choked sW4 7 (by decide))

theorem reach_sT6 : Reachable cfgW sT6 :=
  Reachable.step
    (Reachable.step
      (Reachable.step
        (Reachable.step
          (Reachable.step
            (Reachable.step (Reachable.init [false, false] rfl)
              (Step.arrive (initState [false, false]) [7] (by decide) (by decide)))
            (Step.bitfield envOpen sT1 7 [true, true] (by decide)))
          (Step.timer sT2))
        (Step.timer sT3))
      (Step.timer sT4))
    (Step.timer sT5)

/-- C4: for an idle peer with no matching partial entry, `_check_interest`
reserves (in `_interested`, or directly promoted to `_requesting` if the
peer is already unchoked) exactly the piece the `_rarest` scan finds, and
that piece's rarity count in `_needed` is minimal among all candidate
pieces — pieces the peer advertises that are still needed and not already
reserved in `_interested` or `_requesting`. -/
theorem claim_C4 (cfg : Config) (env : Env) (s : State) (p : Nat)
    (hr : Reachable cfg s) (hp : p ∈ s.peers)
    (hI : alookup s.interested p = none) (hR : alookup s.requesting p = none)
    (hf : s.setAside.find? (fun e => (ofInterest s p).contains e.piece) = none)
    (rr : Int × List Nat × Nat)
    (hrr : (rarest s).find?
        (fun r => (ofInterest s p).contains r.2.2 &&
          !((dontConsider s).contains r.2.2)) = some rr) :
    ((alookup (check_interest cfg env s p).1.interested p).map (fun r => r.piece)
        = some rr.2.2 ∨
     (alookup (check_interest cfg env s p).1.requesting p).map (fun a => a.piece)
        = some rr.2.2) ∧
    rr.2.2 ∈ ofInterest s p ∧ rr.2.2 ∉ dontConsider s ∧
    alookup s.needed rr.2.2 = some (rr.1, rr.2.1) ∧
    (∀ j ∈ ofInterest s p, j ∉ dontConsider s →
      ∀ (occj occr : Int) (prsj prsr : List Nat),
        alookup s.needed j = some (occj, prsj) →
        alookup s.needed rr.2.2 = some (occr, prsr) → occr ≤ occj) := by
  have hInv := reachable_inv cfg s hr
  have hmemrr : rr ∈ rarest s := List.mem_of_find?_eq_some hrr
  have hprr := List.find?_some hrr
  rw [Bool.and_eq_true] at hprr
  have hof : rr.2.2 ∈ ofInterest s p := by simpa using hprr.1
  have hdc : rr.2.2 ∉ dontConsider s := by simpa using hprr.2
  have hneed := (mem_rarest_iff s rr).mp hmemrr
  have hlk : alookup s.needed rr.2.2 = some (rr.1, rr.2.1) :=
    alookup_of_mem_of_nodup hInv.needed_keys_nodup hneed.1
  refine ⟨?_, hof, hdc, hlk, ?_⟩
  · rw [check_interest_eq_rarest cfg env s p rr hI hR hf hrr]
    have hup : alookup (aupdate s.interested p ⟨rr.2.2, 0, [], s.tick⟩) p =
        some ⟨rr.2.2, 0, [], s.tick⟩ := alookup_aupdate_self _ _ _
    cases hc : env.isPeerChoked p with
    | true =>
      rw [show_interest_eq_choked cfg env _ p hc]
      left
      show (alookup (aupdate s.interested p ⟨rr.2.2, 0, [], s.tick⟩) p).map _ = _
      rw [hup]
      rfl
    | false =>
      rw [show_interest_eq_unchoked cfg env _ p hc]
      rw [request_eq_of_interested cfg _ p ⟨rr.2.2, 0, [], s.tick⟩ hup]
      right
      show (alookup (aupdate s.requesting p ⟨rr.2.2, 0, [], s.tick, 0⟩) p).map _ = _
      rw [alookup_aupdate_self]
      rfl
  · intro j hjof hjdc occj occr prsj prsr hj hrrlk
    have hbits := mem_ofInterest hjof
    have hpm : p ∈ prsj := hInv.avail j occj prsj hj p hp hbits.2.2
    have hocc : occj = (prsj.length : Int) := hInv.rar j occj prsj hj
    have hlen0 : 0 < prsj.length := List.length_pos.mpr (List.ne_nil_of_mem hpm)
    have hocc0 : occj ≠ 0 := by omega
    have hmemj : ((occj, prsj, j) : Int × List Nat × Nat) ∈ rarest s :=
      (mem_rarest_iff s (occj, prsj, j)).mpr ⟨alookup_mem hj, hocc0⟩
    have hpj : (fun r => (ofInterest s p).contains r.2.2 &&
        !((dontConsider s).contains r.2.2)) ((occj, prsj, j) : Int × List Nat × Nat)
        = true := by
      simp [hjof, hjdc]
    have hmin := find?_min_of_pairwise (rarest_pairwise s) hrr (occj, prsj, j) hmemj hpj
    have hrrocc : rr.1 = occr := by
      have hh := hlk.symm.trans hrrlk
      rw [Option.some_inj, Prod.mk.injEq] at hh
      exact hh.1
    have hfst : rr.1 ≤ occj := by
      rcases hmin with heq | hle
      · rw [heq]
      · exact rarLeB_fst_le hle
    omega

theorem claim_C4_witness :
    ((alookup (check_interest cfgW envQuiet sW5 8).1.interested 8).map
        (fun r => r.piece) = some 0 ∨
     (alookup (check_interest cfgW envQuiet sW5 8).1.requesting 8).map
        (fun a => a.piece) = some 0) ∧
    (0 ∈ ofInterest sW5 8 ∧ 0 ∉ dontConsider sW5) ∧
    alookup sW5.needed 0 = some (2, [7, 8]) := by
  have h := claim_C4 cfgW envQuiet sW5 8 reach_sW5 (by decide) (by decide) (by decide)
    (by decide) (2, [7, 8], 0) (by decide)
  exact ⟨h.1, ⟨h.2.1, h.2.2.1⟩, h.2.2.2.1⟩

/-- C8: on a timer event, every `_requesting` entry that has waited five
ticks is retried — the request re-sent at the same offset, the retry count
bumped, the entry's tick reset to the new current tick — while an entry
already at `MAX_RETRIES` is spilled to `_partial`, removed from
`_requesting`, its peer sent not-interested; one replacement connection is
opened per abandoned reservation (stale-interest or given-up request). -/
theorem claim_C8 (cfg : Config) (s : State) (hr : Reachable cfg s)
    (p : Nat) (a : ActiveReq) (hmem : (p, a) ∈ s.requesting)
    (hstale : a.tick + 5 = s.tick + 1) :
    (timer_event cfg s).1.tick = s.tick + 1 ∧
    (a.retries < MAX_RETRIES →
      alookup (timer_event cfg s).1.requesting p =
        some ⟨a.piece, a.got, a.hash, s.tick + 1, a.retries + 1⟩ ∧
      Effect.request p a.piece a.got (bytes_to_request cfg a.piece (a.got : Int)) ∈
        (timer_event cfg s).2) ∧
    (¬ a.retries < MAX_RETRIES →
      alookup (timer_event cfg s).1.requesting p = none ∧
      (⟨a.piece, a.got, a.hash⟩ : Part) ∈ (timer_event cfg s).1.setAside ∧
      Effect.notInterested p ∈ (timer_event cfg s).2 ∧
      Effect.connect 1 ∈ (timer_event cfg s).2) ∧
    (timer_event cfg s).2.count (Effect.connect 1) =
      s.interested.countP (fun e => decide (e.2.tick + 4 = s.tick + 1)) +
      s.requesting.countP (sweepGaveUp (s.tick + 1)) := by
  have hInv := reachable_inv cfg s hr
  have hd : ∀ q ∈ s.requesting.map Prod.fst, alookup s.interested q = none := by
    intro q hq
    rcases hInv.int_req_disj q with h | h
    · exact h
    · rw [alookup_eq_none_iff] at h
      exact absurd hq h
  rw [timer_event_spec cfg s hInv.int_keys_nodup hInv.req_keys_nodup hd]
  have hlkF := alookup_filterMap_sweepReq (s.tick + 1) s.requesting
    hInv.req_keys_nodup p a hmem
  refine ⟨rfl, ?_, ?_, ?_⟩
  · intro hretr
    constructor
    · show alookup (s.requesting.filterMap (sweepReq (s.tick + 1))) p = _
      rw [hlkF]
      unfold sweepReq
      rw [if_pos hstale, if_pos hretr]
      rfl
    · show _ ∈ s.interested.flatMap (sweepIntEff (s.tick + 1)) ++
        s.requesting.flatMap (sweepReqEff cfg (s.tick + 1))
      refine List.mem_append.mpr (Or.inr ?_)
      refine List.mem_flatMap.mpr ⟨(p, a), hmem, ?_⟩
      unfold sweepReqEff
      rw [if_pos hstale, if_pos hretr]
      exact List.mem_singleton.mpr rfl
  · intro hretr
    refine ⟨?_, ?_, ?_, ?_⟩
    · show alookup (s.requesting.filterMap (sweepReq (s.tick + 1))) p = _
      rw [hlkF]
      unfold sweepReq
      rw [if_pos hstale, if_neg hretr]
      rfl
    · show _ ∈ s.setAside ++ (s.requesting.filter (sweepGaveUp (s.tick + 1))).map
        (fun e => (⟨e.2.piece, e.2.got, e.2.hash⟩ : Part))
      refine List.mem_append.mpr (Or.inr ?_)
      refine List.mem_map.mpr ⟨(p, a), ?_, rfl⟩
      refine List.mem_filter.mpr ⟨hmem, ?_⟩
      unfold sweepGaveUp
      simp [hstale, hretr]
    · refine List.mem_append.mpr (Or.inr ?_)
      refine List.mem_flatMap.mpr ⟨(p, a), hmem, ?_⟩
      unfold sweepReqEff
      rw [if_pos hstale, if_neg hretr]
      exact List.mem_cons_self _ _
    · refine List.mem_append.mpr (Or.inr ?_)
      refine List.mem_flatMap.mpr ⟨(p, a), hmem, ?_⟩
      unfold sweepReqEff
      rw [if_pos hstale, if_neg hretr]
      exact List.mem_cons_of_mem _ (List.mem_singleton.mpr rfl)
  · show (s.interested.flatMap (sweepIntEff (s.tick + 1)) ++
      s.requesting.flatMap (sweepReqEff cfg (s.tick + 1))).count (Effect.connect 1) = _
    rw [List.count_append, count_connect_intEff, count_connect_reqEff]

theorem claim_C8_witness :
    (timer_event cfgW sT6).1.tick = sT6.tick + 1 ∧
    alookup (timer_event cfgW sT6).1.requesting 7 =
      some ⟨0, 0, [], sT6.tick + 1, 1⟩ ∧
    Effect.request 7 0 0 (bytes_to_request cfgW 0 ((0 : Nat) : Int)) ∈
      (timer_event cfgW sT6).2 := by
  have h := claim_C8 cfgW sT6 reach_sT6 7 ⟨0, 0, [], 1, 0⟩ (by decide) (by decide)
  exact ⟨h.1, (h.2.1 (by decide)).1, (h.2.1 (by decide)).2⟩

end Torrent
